import Mathlib

/-
Verification of the SpliceJunctionDiscovery pipeline.

The Python sources are shallowly embedded: CIGAR operation-run strings are
lists of characters, Python regular-expression scans are modelled by
character-level scanners, Python dictionaries by association lists, raised
exceptions by an error type threaded through Except, and Python integers by
Int (unbounded, as in Python).
-/

namespace SpliceJD

set_option maxHeartbeats 1000000

/-- Operation kinds of the CIGAR operation-run encoding recognised by the
data model: match, insertion, deletion, intron skip, soft clip, hard clip
and padding. -/
inductive Op where
  | M | I | D | N | S | H | P
  deriving DecidableEq, Repr

/-- Letter used for each operation kind in a CIGAR string. -/
def Op.char : Op → Char
  | .M => 'M'
  | .I => 'I'
  | .D => 'D'
  | .N => 'N'
  | .S => 'S'
  | .H => 'H'
  | .P => 'P'

/-- One operation run: a length together with an operation kind. -/
structure Run where
  len : Nat
  op : Op
  deriving DecidableEq, Repr

/-- Decimal digit character for a value below ten. -/
def digitChar (d : Nat) : Char := Char.ofNat (48 + d)

/-- Decimal digits of a natural number, least significant first. -/
def natDigitsRev (n : Nat) : List Char :=
  if _h : n < 10 then [digitChar n]
  else digitChar (n % 10) :: natDigitsRev (n / 10)
termination_by n
decreasing_by exact Nat.div_lt_self (by omega) (by omega)

/-- Decimal rendering of a natural number, most significant digit first. -/
def renderNat (n : Nat) : List Char := (natDigitsRev n).reverse

/-- Rendering of one operation run inside a CIGAR string: the decimal length
followed by the operation letter. -/
def Run.render (r : Run) : List Char := renderNat r.len ++ [r.op.char]

/-- Rendering of a whole operation-run sequence as a CIGAR string. -/
def renderCigar (rs : List Run) : List Char := (rs.map Run.render).flatten

/-- Numeric value of a decimal digit character. -/
def digitVal (c : Char) : Nat := c.toNat - 48

/-- Scanner state for the digit-run search: the accumulator holds the value
of the digit run currently being read, if any. -/
def findNumsGo : List Char → Option Nat → List Nat
  | [], none => []
  | [], some n => [n]
  | c :: cs, none =>
    if c.isDigit then findNumsGo cs (some (digitVal c)) else findNumsGo cs none
  | c :: cs, some n =>
    if c.isDigit then findNumsGo cs (some (10 * n + digitVal c))
    else n :: findNumsGo cs none

/-- Model of the Python idiom int applied to every maximal digit run found in
the string, in order, as used on CIGAR strings in SpliceJunctionDiscovery.py. -/
def findallNums (s : List Char) : List Nat := findNumsGo s none

/-- Uppercase-letter test, matching the character class used by the letter
scan in SpliceJunctionDiscovery.py. -/
def pyUpper (c : Char) : Bool := 'A' ≤ c && c ≤ 'Z'

/-- Model of the uppercase-letter scan of SpliceJunctionDiscovery.py: all
uppercase letters of the string, in order. -/
def findallLetters (s : List Char) : List Char := s.filter pyUpper

/-- Text of a CIGAR string before its first N character, the first element
of the Python split of the string on N. -/
def splitN0 (s : List Char) : List Char := s.takeWhile (fun c => c != 'N')

/-- Text of a CIGAR string strictly between its first and second N
characters (to the end of the string when there is only one N), the second
element of the Python split of the string on N. -/
def splitN1 (s : List Char) : List Char :=
  ((s.dropWhile (fun c => c != 'N')).drop 1).takeWhile (fun c => c != 'N')

/-- Number of N characters in a CIGAR string. -/
def countN (s : List Char) : Nat := s.countP (fun c => c == 'N')

/-- Embedding of length_of_first_intronic_section: the last number occurring
before the first N character.  Returns none where the Python code raises
IndexError (no number before the first N). -/
def length_of_first_intronic_section (s : List Char) : Option Nat :=
  (findallNums (splitN0 s)).getLast?

/-- Embedding of num_of_matches_before_first_intronic_section: drop the last
number before the first N, pair the remaining numbers with the letters before
the first N, and sum the numbers whose letter is not one of I, S, P, H. -/
def num_of_matches_before_first_intronic_section (s : List Char) : Nat :=
  let pre := splitN0 s
  let numbers := (findallNums pre).dropLast
  let letters := findallLetters pre
  ((numbers.zip letters).filter
    (fun t => !(['I', 'S', 'P', 'H'].contains t.2))).foldl (fun a t => a + t.1) 0

/-- One splice junction: chromosome label, inclusive start, exclusive end.
The Python code renders it as a comma-separated string key; the three fields
determine that key. -/
structure Junction where
  chrom : String
  start : Int
  stop : Int
  deriving DecidableEq, Repr

/-- Embedding of get_first_splice_junction.  Returns none where the Python
code raises IndexError. -/
def get_first_splice_junction (cigar : List Char) (t_chrom : String)
    (pos : Int) : Option Junction :=
  match length_of_first_intronic_section cigar with
  | none => none
  | some intron_length =>
    let m := num_of_matches_before_first_intronic_section cigar
    some ⟨t_chrom, pos + m, pos + m + intron_length⟩

/-- Embedding of get_end_position_from_junction: the third comma-separated
field of a junction key, which is the stop coordinate. -/
def get_end_position_from_junction (j : Junction) : Int := j.stop

/-- Embedding of get_second_splice_junction: runs the same two scans on the
section of the CIGAR string after the first N and offsets from the end of
the first junction.  Returns none where the Python code raises IndexError. -/
def get_second_splice_junction (cigar : List Char) (t_chrom : String)
    (_pos : Int) (first_splice_junction_end : Int) : Option Junction :=
  let section_after_first_intron := splitN1 cigar
  let m := num_of_matches_before_first_intronic_section section_after_first_intron
  match length_of_first_intronic_section section_after_first_intron with
  | none => none
  | some second_intron_length =>
    some ⟨t_chrom, first_splice_junction_end + m,
      first_splice_junction_end + m + second_intron_length⟩

/-! Facts about the decimal rendering and the character scanners, leading to
the general statement about the pre-intron reference offset. -/

theorem digitChar_spec (d : Nat) (h : d < 10) :
    (digitChar d).isDigit = true ∧ digitVal (digitChar d) = d ∧
      pyUpper (digitChar d) = false ∧ (digitChar d != 'N') = true := by
  interval_cases d <;> exact ⟨by decide, by decide, by decide, by decide⟩

theorem mem_natDigitsRev (n : Nat) :
    ∀ c ∈ natDigitsRev n, ∃ d, d < 10 ∧ c = digitChar d := by
  induction n using Nat.strong_induction_on with
  | _ n ih =>
    unfold natDigitsRev
    split
    · intro c hc
      simp only [List.mem_singleton] at hc
      exact ⟨n, by omega, hc⟩
    · intro c hc
      simp only [List.mem_cons] at hc
      rcases hc with h | h
      · exact ⟨n % 10, Nat.mod_lt _ (by omega), h⟩
      · exact ih (n / 10) (Nat.div_lt_self (by omega) (by omega)) c h

theorem natDigitsRev_ne_nil (n : Nat) : natDigitsRev n ≠ [] := by
  unfold natDigitsRev; split <;> simp

theorem mem_renderNat (n : Nat) :
    ∀ c ∈ renderNat n, ∃ d, d < 10 ∧ c = digitChar d := by
  intro c hc
  exact mem_natDigitsRev n c (by simpa [renderNat] using hc)

theorem foldl_renderNat (n : Nat) :
    (renderNat n).foldl (fun a c => 10 * a + digitVal c) 0 = n := by
  induction n using Nat.strong_induction_on with
  | _ n ih =>
    by_cases h : n < 10
    · have : renderNat n = [digitChar n] := by
        simp [renderNat]; unfold natDigitsRev; simp [h]
      rw [this]
      simp [(digitChar_spec n h).2.1]
    · have hrw : renderNat n = renderNat (n / 10) ++ [digitChar (n % 10)] := by
        simp only [renderNat]
        conv_lhs => rw [natDigitsRev]
        simp [h]
      rw [hrw, List.foldl_append]
      rw [ih (n / 10) (Nat.div_lt_self (by omega) (by omega))]
      simp only [List.foldl_cons, List.foldl_nil]
      rw [(digitChar_spec (n % 10) (Nat.mod_lt _ (by omega))).2.1]
      omega

theorem findNumsGo_digits (ds : List Char) (hds : ∀ c ∈ ds, c.isDigit = true)
    (a : Nat) (rest : List Char) :
    findNumsGo (ds ++ rest) (some a) =
      findNumsGo rest (some (ds.foldl (fun x c => 10 * x + digitVal c) a)) := by
  induction ds generalizing a with
  | nil => simp
  | cons c cs ih =>
    have hc : c.isDigit = true := hds c (by simp)
    simp only [List.cons_append, findNumsGo, hc, if_true, List.foldl_cons]
    exact ih (fun x hx => hds x (by simp [hx])) _

theorem findNumsGo_renderNat (n : Nat) (rest : List Char) :
    findNumsGo (renderNat n ++ rest) none = findNumsGo rest (some n) := by
  have hdig : ∀ c ∈ renderNat n, c.isDigit = true := by
    intro c hc
    obtain ⟨d, hd, rfl⟩ := mem_renderNat n c hc
    exact (digitChar_spec d hd).1
  obtain ⟨d, ds, hd⟩ : ∃ d ds, renderNat n = d :: ds := by
    cases hrn : renderNat n with
    | nil =>
      exact absurd (List.reverse_eq_nil_iff.mp (by simpa [renderNat] using hrn))
        (natDigitsRev_ne_nil n)
    | cons d ds => exact ⟨d, ds, rfl⟩
  have hdd : d.isDigit = true := hdig d (by rw [hd]; simp)
  have hfold : ds.foldl (fun x c => 10 * x + digitVal c) (digitVal d) = n := by
    have := foldl_renderNat n
    rw [hd] at this
    simpa using this
  rw [hd, List.cons_append]
  simp only [findNumsGo, hdd, if_true]
  rw [findNumsGo_digits ds (fun c hc => hdig c (by rw [hd]; simp [hc])) _ rest]
  rw [hfold]

theorem opChar_not_digit (o : Op) : (o.char).isDigit = false := by
  cases o <;> decide

theorem findNumsGo_run (r : Run) (rest : List Char) :
    findNumsGo (r.render ++ rest) none = r.len :: findNumsGo rest none := by
  have h1 : r.render ++ rest = renderNat r.len ++ (r.op.char :: rest) := by
    simp [Run.render]
  rw [h1, findNumsGo_renderNat]
  simp [findNumsGo, opChar_not_digit r.op]

theorem findNumsGo_renderCigar (rs : List Run) (rest : List Char) :
    findNumsGo (renderCigar rs ++ rest) none =
      rs.map Run.len ++ findNumsGo rest none := by
  induction rs with
  | nil => simp [renderCigar]
  | cons r rs ih =>
    have h1 : renderCigar (r :: rs) ++ rest = r.render ++ (renderCigar rs ++ rest) := by
      simp [renderCigar]
    rw [h1, findNumsGo_run, ih]
    rfl

theorem findallLetters_append (s t : List Char) :
    findallLetters (s ++ t) = findallLetters s ++ findallLetters t := by
  simp [findallLetters]

theorem findallLetters_renderNat (n : Nat) : findallLetters (renderNat n) = [] := by
  simp only [findallLetters]
  rw [List.filter_eq_nil_iff]
  intro c hc
  obtain ⟨d, hd, rfl⟩ := mem_renderNat n c hc
  simp [(digitChar_spec d hd).2.2.1]

theorem opChar_upper (o : Op) : pyUpper o.char = true := by
  cases o <;> decide

theorem findallLetters_run (r : Run) : findallLetters r.render = [r.op.char] := by
  simp only [Run.render]
  rw [findallLetters_append, findallLetters_renderNat]
  simp [findallLetters, opChar_upper r.op]

theorem findallLetters_renderCigar (rs : List Run) :
    findallLetters (renderCigar rs) = rs.map (fun r => r.op.char) := by
  induction rs with
  | nil => simp [renderCigar, findallLetters]
  | cons r rs ih =>
    have h1 : renderCigar (r :: rs) = r.render ++ renderCigar rs := by
      simp [renderCigar]
    rw [h1, findallLetters_append, findallLetters_run, ih]
    rfl

theorem takeWhile_append_of_forall {α : Type} {p : α → Bool} (s t : List α)
    (h : ∀ c ∈ s, p c = true) :
    (s ++ t).takeWhile p = s ++ t.takeWhile p := by
  induction s with
  | nil => simp
  | cons c cs ih =>
    simp only [List.cons_append, List.takeWhile_cons, h c (by simp), if_true]
    rw [ih (fun x hx => h x (by simp [hx]))]

theorem mem_renderNat_ne_N (n : Nat) : ∀ c ∈ renderNat n, (c != 'N') = true := by
  intro c hc
  obtain ⟨d, hd, rfl⟩ := mem_renderNat n c hc
  exact (digitChar_spec d hd).2.2.2

theorem opChar_ne_N (o : Op) (h : o ≠ Op.N) : (o.char != 'N') = true := by
  cases o <;> first | rfl | exact absurd rfl h

theorem mem_render_ne_N (r : Run) (h : r.op ≠ Op.N) :
    ∀ c ∈ r.render, (c != 'N') = true := by
  intro c hc
  simp only [Run.render, List.mem_append, List.mem_singleton] at hc
  rcases hc with hc | rfl
  · exact mem_renderNat_ne_N r.len c hc
  · exact opChar_ne_N r.op h

theorem mem_renderCigar_ne_N (rs : List Run) (h : ∀ r ∈ rs, r.op ≠ Op.N) :
    ∀ c ∈ renderCigar rs, (c != 'N') = true := by
  intro c hc
  simp only [renderCigar, List.mem_flatten, List.mem_map] at hc
  obtain ⟨l, ⟨r, hr, rfl⟩, hcl⟩ := hc
  exact mem_render_ne_N r (h r hr) c hcl

/-- Sum of the lengths of the MATCH and DELETION runs of a run sequence. -/
def mdSum (l : List Run) : Nat :=
  ((l.filter (fun r => r.op == Op.M || r.op == Op.D)).map Run.len).sum

theorem foldl_add_fst (l : List (Nat × Char)) (a : Nat) :
    l.foldl (fun x t => x + t.1) a = a + (l.map Prod.fst).sum := by
  induction l generalizing a with
  | nil => simp
  | cons t ts ih => simp [ih]; omega

theorem dropWhile_head_not {α : Type} (p : α → Bool) (l : List α) (a : α)
    (post : List α) (h : l.dropWhile p = a :: post) : p a = false := by
  induction l with
  | nil => simp at h
  | cons x xs ih =>
    by_cases hx : p x
    · rw [List.dropWhile_cons_of_pos hx] at h
      exact ih h
    · rw [List.dropWhile_cons_of_neg hx] at h
      injection h with h1 h2
      subst h1
      simpa using hx

theorem extractor_on_render (pre : List Run) (nrun : Run) (post : List Run)
    (hpre : ∀ r ∈ pre, r.op ≠ Op.N) (hn : nrun.op = Op.N) :
    num_of_matches_before_first_intronic_section
        (renderCigar (pre ++ nrun :: post)) = mdSum pre ∧
      length_of_first_intronic_section (renderCigar (pre ++ nrun :: post)) =
        some nrun.len := by
  have hdecomp : renderCigar (pre ++ nrun :: post) =
      renderCigar pre ++ renderNat nrun.len ++ 'N' :: renderCigar post := by
    have h1 : renderCigar (pre ++ nrun :: post) =
        renderCigar pre ++ (nrun.render ++ renderCigar post) := by
      simp [renderCigar]
    rw [h1]
    have h2 : nrun.render = renderNat nrun.len ++ ['N'] := by
      simp [Run.render, hn, Op.char]
    rw [h2]
    simp
  have hsplit : splitN0 (renderCigar (pre ++ nrun :: post)) =
      renderCigar pre ++ renderNat nrun.len := by
    rw [hdecomp]
    simp only [splitN0, List.append_assoc]
    rw [takeWhile_append_of_forall _ _ (mem_renderCigar_ne_N pre hpre)]
    rw [takeWhile_append_of_forall _ _ (mem_renderNat_ne_N nrun.len)]
    simp [List.takeWhile_cons]
  have hnums : findallNums (splitN0 (renderCigar (pre ++ nrun :: post))) =
      pre.map Run.len ++ [nrun.len] := by
    rw [hsplit]
    simp only [findallNums]
    rw [findNumsGo_renderCigar]
    rw [show findNumsGo (renderNat nrun.len) none =
      findNumsGo (renderNat nrun.len ++ []) none by simp]
    rw [findNumsGo_renderNat]
    rfl
  have hlett : findallLetters (splitN0 (renderCigar (pre ++ nrun :: post))) =
      pre.map (fun r => r.op.char) := by
    rw [hsplit, findallLetters_append, findallLetters_renderCigar,
      findallLetters_renderNat]
    simp
  constructor
  · simp only [num_of_matches_before_first_intronic_section, hnums, hlett]
    rw [List.dropLast_concat]
    rw [List.zip_map']
    rw [List.filter_map]
    have hfc : (pre.filter
          (fun r => !(['I', 'S', 'P', 'H'].contains r.op.char))) =
        pre.filter (fun r => r.op == Op.M || r.op == Op.D) := by
      apply List.filter_congr
      intro r hr
      have : r.op ≠ Op.N := hpre r hr
      cases hop : r.op <;> simp_all <;> decide
    simp only [Function.comp_def]
    rw [foldl_add_fst]
    rw [show (pre.filter fun a =>
        !(['I', 'S', 'P', 'H'].contains ((a.len, a.op.char) : Nat × Char).2)) =
      (pre.filter fun r => !(['I', 'S', 'P', 'H'].contains r.op.char)) from rfl]
    rw [hfc]
    simp [mdSum, List.map_map, Function.comp_def]
  · simp only [length_of_first_intronic_section, hnums]
    simp

/-- C1: for every operation-run sequence containing an N run, the computed
pre-intron offset is the sum of the lengths of MATCH and DELETION runs before
the first N run (all other kinds excluded), and the first junction starts at
position plus that offset and ends after the length of the first N run. -/
theorem c1_first_junction_offset (rs : List Run) (t_chrom : String) (pos : Int)
    (h : ∃ r ∈ rs, r.op = Op.N) :
    ∃ nrun,
      (rs.dropWhile (fun r => r.op != Op.N)).head? = some nrun ∧
      nrun.op = Op.N ∧
      num_of_matches_before_first_intronic_section (renderCigar rs) =
        mdSum (rs.takeWhile (fun r => r.op != Op.N)) ∧
      get_first_splice_junction (renderCigar rs) t_chrom pos =
        some ⟨t_chrom, pos + mdSum (rs.takeWhile (fun r => r.op != Op.N)),
          pos + mdSum (rs.takeWhile (fun r => r.op != Op.N)) + nrun.len⟩ := by
  have hne : rs.dropWhile (fun r => r.op != Op.N) ≠ [] := by
    intro hnil
    obtain ⟨r, hr, hrN⟩ := h
    have := List.dropWhile_eq_nil_iff.mp hnil r hr
    simp [hrN] at this
  obtain ⟨nrun, post, hd⟩ : ∃ nrun post,
      rs.dropWhile (fun r => r.op != Op.N) = nrun :: post := by
    cases hcase : rs.dropWhile (fun r => r.op != Op.N) with
    | nil => exact absurd hcase hne
    | cons a b => exact ⟨a, b, rfl⟩
  have hnN : nrun.op = Op.N := by
    have hhead := dropWhile_head_not (fun r => r.op != Op.N) rs nrun post hd
    simpa using hhead
  have hpre : ∀ r ∈ rs.takeWhile (fun r => r.op != Op.N), r.op ≠ Op.N := by
    intro r hr
    have := List.mem_takeWhile_imp hr
    simpa using this
  have hsplitrs : rs = rs.takeWhile (fun r => r.op != Op.N) ++ nrun :: post := by
    conv_lhs => rw [← List.takeWhile_append_dropWhile (p := fun r => r.op != Op.N) (l := rs)]
    rw [hd]
  obtain ⟨hm, hl⟩ := extractor_on_render (rs.takeWhile (fun r => r.op != Op.N))
    nrun post hpre hnN
  refine ⟨nrun, by simp [hd], hnN, ?_, ?_⟩
  · conv_lhs => rw [hsplitrs]
    exact hm
  · conv_lhs => rw [hsplitrs]
    simp only [get_first_splice_junction, hl, hm]

/-- Witness for c1_first_junction_offset at a concrete run sequence. -/
theorem c1_first_junction_offset_witness :
    (∃ r ∈ [Run.mk 3 Op.M, Run.mk 1 Op.D, Run.mk 2 Op.I, Run.mk 40 Op.M,
        Run.mk 20 Op.N, Run.mk 5 Op.M], r.op = Op.N) ∧
      (∃ nrun,
        ([Run.mk 3 Op.M, Run.mk 1 Op.D, Run.mk 2 Op.I, Run.mk 40 Op.M,
            Run.mk 20 Op.N, Run.mk 5 Op.M].dropWhile
              (fun r => r.op != Op.N)).head? = some nrun ∧
        nrun.op = Op.N ∧
        num_of_matches_before_first_intronic_section
            (renderCigar [Run.mk 3 Op.M, Run.mk 1 Op.D, Run.mk 2 Op.I,
              Run.mk 40 Op.M, Run.mk 20 Op.N, Run.mk 5 Op.M]) =
          mdSum ([Run.mk 3 Op.M, Run.mk 1 Op.D, Run.mk 2 Op.I, Run.mk 40 Op.M,
            Run.mk 20 Op.N, Run.mk 5 Op.M].takeWhile (fun r => r.op != Op.N)) ∧
        get_first_splice_junction
            (renderCigar [Run.mk 3 Op.M, Run.mk 1 Op.D, Run.mk 2 Op.I,
              Run.mk 40 Op.M, Run.mk 20 Op.N, Run.mk 5 Op.M]) "2" 5 =
          some ⟨"2", 5 + mdSum ([Run.mk 3 Op.M, Run.mk 1 Op.D, Run.mk 2 Op.I,
              Run.mk 40 Op.M, Run.mk 20 Op.N, Run.mk 5 Op.M].takeWhile
                (fun r => r.op != Op.N)),
            5 + mdSum ([Run.mk 3 Op.M, Run.mk 1 Op.D, Run.mk 2 Op.I,
              Run.mk 40 Op.M, Run.mk 20 Op.N, Run.mk 5 Op.M].takeWhile
                (fun r => r.op != Op.N)) + nrun.len⟩) :=
  ⟨by decide, c1_first_junction_offset _ "2" 5 (by decide)⟩

/-- C8: the scenario cigar 13M221400N34M2658N29M at position 5 yields first
junction (chrom, 18, 221418), and with the second offset 34 added to the
first junction's end, second junction (chrom, 221452, 224110). -/
theorem c8_scenario (t_chrom : String) :
    get_first_splice_junction ("13M221400N34M2658N29M".data) t_chrom 5 =
      some ⟨t_chrom, 18, 221418⟩ ∧
    get_second_splice_junction ("13M221400N34M2658N29M".data) t_chrom 5 221418 =
      some ⟨t_chrom, 221452, 224110⟩ := by
  constructor
  · show (match length_of_first_intronic_section ("13M221400N34M2658N29M".data) with
      | none => none
      | some intron_length =>
        some (Junction.mk t_chrom
          (5 + num_of_matches_before_first_intronic_section ("13M221400N34M2658N29M".data))
          (5 + num_of_matches_before_first_intronic_section ("13M221400N34M2658N29M".data)
            + intron_length))) = some ⟨t_chrom, 18, 221418⟩
    rw [show length_of_first_intronic_section ("13M221400N34M2658N29M".data) =
      some 221400 from by decide]
    rw [show num_of_matches_before_first_intronic_section
      ("13M221400N34M2658N29M".data) = 13 from by decide]
    rfl
  · show (match length_of_first_intronic_section
        (splitN1 ("13M221400N34M2658N29M".data)) with
      | none => none
      | some second_intron_length =>
        some (Junction.mk t_chrom
          (221418 + num_of_matches_before_first_intronic_section
            (splitN1 ("13M221400N34M2658N29M".data)))
          (221418 + num_of_matches_before_first_intronic_section
            (splitN1 ("13M221400N34M2658N29M".data)) + second_intron_length))) =
      some ⟨t_chrom, 221452, 224110⟩
    rw [show length_of_first_intronic_section
      (splitN1 ("13M221400N34M2658N29M".data)) = some 2658 from by decide]
    rw [show num_of_matches_before_first_intronic_section
      (splitN1 ("13M221400N34M2658N29M".data)) = 34 from by decide]
    rfl

/-! Embedding of the line loop of find_splice_junctions.  A SAM line is
modelled as its list of tab-separated fields; the external samtools call
that produces the lines is out of scope.  The counter dictionary is an
association list in insertion order; the local variable
unique_splice_junction is an Option tracking whether it has been assigned. -/

/-- Exceptions of the embedded Python code that escape the except clause of
the scan: ValueError from the int conversion of the position field, and the
NameError that would arise from reading the junction variable before any
assignment. -/
inductive PyErr where
  | valueErr
  | nameErr
  | indexErr
  deriving DecidableEq, Repr

/-- Python sequence indexing: the element at the index, none where Python
raises IndexError. -/
def pyIndex {α : Type} : List α → Nat → Option α
  | [], _ => none
  | x :: _, 0 => some x
  | _ :: xs, n + 1 => pyIndex xs n

def exceptDecEq {ε α : Type} [DecidableEq ε] [DecidableEq α] :
    (a b : Except ε α) → Decidable (a = b)
  | .error e1, .error e2 =>
    match decEq e1 e2 with
    | isTrue h => isTrue (by rw [h])
    | isFalse h => isFalse (fun hh => h (by injection hh))
  | .ok v1, .ok v2 =>
    match decEq v1 v2 with
    | isTrue h => isTrue (by rw [h])
    | isFalse h => isFalse (fun hh => h (by injection hh))
  | .error _, .ok _ => isFalse (fun hh => Except.noConfusion hh)
  | .ok _, .error _ => isFalse (fun hh => Except.noConfusion hh)

instance {ε α : Type} [DecidableEq ε] [DecidableEq α] :
    DecidableEq (Except ε α) := exceptDecEq

/-- Value of a nonempty all-digit character string. -/
def pyDigits (cs : List Char) : Option Nat :=
  if cs.isEmpty then none
  else if cs.all Char.isDigit then
    some (cs.foldl (fun a c => 10 * a + digitVal c) 0)
  else none

/-- Model of the Python int conversion of a string: optional surrounding
spaces, an optional sign, then at least one digit; none where Python raises
ValueError. -/
def pyInt (s : String) : Option Int :=
  let cs := s.data.dropWhile (fun c => c == ' ')
  let cs := (cs.reverse.dropWhile (fun c => c == ' ')).reverse
  match cs with
  | '-' :: rest => (pyDigits rest).map (fun n => -(n : Int))
  | '+' :: rest => (pyDigits rest).map (fun n => (n : Int))
  | rest => (pyDigits rest).map (fun n => (n : Int))

/-- Junction counter of one region scan, in insertion order. -/
abbrev Table := List (Junction × Nat)

/-- Embedding of the defaultdict increment splice_junctions of the scan:
add one to the entry of the junction, creating it at the end with count one
when absent. -/
def incrTable : Table → Junction → Table
  | [], j => [(j, 1)]
  | (k, c) :: rest, j =>
    if k = j then (k, c + 1) :: rest else (k, c) :: incrTable rest j

/-- Embedding of the second if statement of the scan loop, which handles the
second junction of a record with exactly two N runs.  It reads the
unique_splice_junction variable; reading it unassigned would be the Python
NameError.  A failing scan inside get_second_splice_junction is the caught
IndexError: the line is abandoned with the updates made so far kept. -/
def secondBranch (cigar : List Char) (t_chrom : String) (pos : Int)
    (st : Table × Option Junction) : Except PyErr (Table × Option Junction) :=
  if countN cigar == 2 then
    match st.2 with
    | none => .error .nameErr
    | some j =>
      match get_second_splice_junction cigar t_chrom pos
          (get_end_position_from_junction j) with
      | none => .ok st
      | some j2 => .ok (incrTable st.1 j2, some j2)
  else .ok st

/-- Embedding of one iteration of the find_splice_junctions line loop.  The
CIGAR field has index five and the position field index three; a missing
field raises IndexError, caught by the except clause (the line is skipped);
a non-numeric position raises ValueError, which is not caught.  The outer
guard requires an N character and a position strictly inside the region. -/
def stepLine (t_chrom : String) (t_start t_stop : Int)
    (st : Table × Option Junction) (line : List String) :
    Except PyErr (Table × Option Junction) :=
  match pyIndex line 5 with
  | none => .ok st
  | some cigar_string =>
    match pyIndex line 3 with
    | none => .ok st
    | some pos_string =>
      match pyInt pos_string with
      | none => .error .valueErr
      | some pos =>
        let cigar := cigar_string.data
        if 0 < countN cigar ∧ t_start < pos ∧ pos < t_stop then
          if countN cigar ≤ 2 then
            match get_first_splice_junction cigar t_chrom pos with
            | none => .ok st
            | some j1 =>
              secondBranch cigar t_chrom pos (incrTable st.1 j1, some j1)
          else secondBranch cigar t_chrom pos st
        else .ok st

/-- Fold of stepLine over the lines of a region, stopping at the first
uncaught exception. -/
def scanLines (t_chrom : String) (t_start t_stop : Int) :
    List (List String) → Table × Option Junction →
      Except PyErr (Table × Option Junction)
  | [], st => .ok st
  | line :: rest, st =>
    match stepLine t_chrom t_start t_stop st line with
    | .error e => .error e
    | .ok st2 => scanLines t_chrom t_start t_stop rest st2

/-- Embedding of find_splice_junctions: scan all lines starting from an
empty counter and an unassigned junction variable, returning the counter. -/
def find_splice_junctions (sam_lines : List (List String)) (t_chrom : String)
    (t_start t_stop : Int) : Except PyErr Table :=
  (scanLines t_chrom t_start t_stop sam_lines ([], none)).map Prod.fst

example :
    find_splice_junctions [["r", "0", "c", "10", "60", "33M20N8M"]] "1" 0 100 =
      .ok [(⟨"1", 43, 63⟩, 1)] := by decide

example :
    find_splice_junctions [["r", "0", "c", "5", "60", "13M221400N34M2658N29M"]]
        "2" 0 100 =
      .ok [(⟨"2", 18, 221418⟩, 1), (⟨"2", 221452, 224110⟩, 1)] := by decide

/-- C2 counterexample: a record whose CIGAR string has three N runs, with a
position inside the region and a perfectly computable first junction, is
scanned and yet the region counter stays empty: the count bound of two in
the scan guard excludes such records entirely instead of emitting their
first junction. -/
theorem c2_counterexample :
    find_splice_junctions [["r1", "0", "chr1", "10", "60", "5M10N5M10N5M10N5M"]]
        "1" 0 100 = .ok [] ∧
      countN ("5M10N5M10N5M10N5M".data) = 3 ∧
      (0 : Int) < 10 ∧ (10 : Int) < 100 ∧
      get_first_splice_junction ("5M10N5M10N5M10N5M".data) "1" 10 =
        some ⟨"1", 15, 25⟩ := by decide

/-- C2 amended: a record whose operation-run string contains more than two N
runs is skipped entirely by the per-region scan: neither of its junctions is
emitted and the scan state is unchanged; runs after the second skip are in
particular never inspected. -/
theorem c2_skip_many_skips (t_chrom : String) (t_start t_stop : Int)
    (st : Table × Option Junction) (line : List String)
    (cigar_string pos_string : String) (pos : Int)
    (h5 : pyIndex line 5 = some cigar_string)
    (h3 : pyIndex line 3 = some pos_string)
    (hp : pyInt pos_string = some pos)
    (hN : 2 < countN cigar_string.data) :
    stepLine t_chrom t_start t_stop st line = .ok st := by
  have h1 : ¬(countN cigar_string.data ≤ 2) := by omega
  have h2 : (countN cigar_string.data == 2) = false := by
    simp only [beq_eq_false_iff_ne, ne_eq]
    omega
  simp [stepLine, h5, h3, hp, h1, secondBranch, h2]

/-- Witness for c2_skip_many_skips at a concrete line. -/
theorem c2_skip_many_skips_witness :
    stepLine "1" 0 100 ([], none)
        ["r1", "0", "chr1", "10", "60", "5M10N5M10N5M10N5M"] = .ok ([], none) :=
  c2_skip_many_skips "1" 0 100 ([], none)
    ["r1", "0", "chr1", "10", "60", "5M10N5M10N5M10N5M"]
    "5M10N5M10N5M10N5M" "10" 10 (by decide) (by decide) (by decide) (by decide)

/-- C3 counterexample: a record whose position field is not numeric does not
get skipped: the int conversion raises an uncaught ValueError and the whole
region scan aborts, losing even the well-formed record that follows; the
well-formed record alone would have produced a junction. -/
theorem c3_counterexample :
    find_splice_junctions
        [["r1", "0", "chr1", "abc", "60", "5M10N5M"],
          ["r2", "0", "chr1", "10", "60", "5M10N5M"]] "1" 0 100 =
      .error .valueErr ∧
    find_splice_junctions [["r2", "0", "chr1", "10", "60", "5M10N5M"]]
        "1" 0 100 = .ok [(⟨"1", 15, 25⟩, 1)] := by decide

/-- C3 amended: a record with missing fields is skipped silently (the
IndexError is caught), and an operation-run string on which the junction
scans fail likewise only skips the offending record; but a record whose
position field is non-numeric raises an uncaught ValueError that aborts the
region scan. -/
theorem c3_malformed_records (t_chrom : String) (t_start t_stop : Int)
    (st : Table × Option Junction) (line : List String) :
    (pyIndex line 5 = none →
      stepLine t_chrom t_start t_stop st line = .ok st) ∧
    (pyIndex line 3 = none →
      stepLine t_chrom t_start t_stop st line = .ok st) ∧
    (∀ cigar_string pos_string, pyIndex line 5 = some cigar_string →
      pyIndex line 3 = some pos_string → pyInt pos_string = none →
      stepLine t_chrom t_start t_stop st line = .error .valueErr) ∧
    (∀ cigar_string pos_string pos, pyIndex line 5 = some cigar_string →
      pyIndex line 3 = some pos_string → pyInt pos_string = some pos →
      countN cigar_string.data ≤ 2 →
      get_first_splice_junction cigar_string.data t_chrom pos = none →
      stepLine t_chrom t_start t_stop st line = .ok st) := by
  refine ⟨?_, ?_, ?_, ?_⟩
  · intro h5
    simp [stepLine, h5]
  · intro h3
    cases h5 : pyIndex line 5 with
    | none => simp [stepLine, h5]
    | some cs => simp [stepLine, h5, h3]
  · intro cs ps h5 h3 hp
    simp [stepLine, h5, h3, hp]
  · intro cs ps pos h5 h3 hp hc2 hgf
    simp [stepLine, h5, h3, hp, hc2, hgf]

/-- Witness for c3_malformed_records at a concrete line with a non-numeric
position field. -/
theorem c3_malformed_records_witness :
    stepLine "1" 0 100 ([], none)
        ["r1", "0", "chr1", "abc", "60", "5M10N5M"] = .error .valueErr :=
  (c3_malformed_records "1" 0 100 ([], none)
      ["r1", "0", "chr1", "abc", "60", "5M10N5M"]).2.2.1
    "5M10N5M" "abc" (by decide) (by decide) (by decide)

/-! Resolution of the stale-value question about the second-junction branch.
The scan result is shown not to depend on the value the junction variable
carries into an iteration, and an instrumented scan that tags each held
value with whether it was assigned in the current iteration shows the
branch only ever reads a value assigned in the same iteration. -/

theorem stepLine_indep (t_chrom : String) (t_start t_stop : Int) (t : Table)
    (u1 u2 : Option Junction) (line : List String) :
    (stepLine t_chrom t_start t_stop (t, u1) line = .ok (t, u1) ∧
      stepLine t_chrom t_start t_stop (t, u2) line = .ok (t, u2)) ∨
    stepLine t_chrom t_start t_stop (t, u1) line =
      stepLine t_chrom t_start t_stop (t, u2) line := by
  cases h5 : pyIndex line 5 with
  | none => refine Or.inl ⟨?_, ?_⟩ <;> simp [stepLine, h5]
  | some cigar_string =>
    cases h3 : pyIndex line 3 with
    | none => refine Or.inl ⟨?_, ?_⟩ <;> simp [stepLine, h5, h3]
    | some pos_string =>
      cases hp : pyInt pos_string with
      | none => refine Or.inr ?_; simp [stepLine, h5, h3, hp]
      | some pos =>
        by_cases hg : 0 < countN cigar_string.data ∧ t_start < pos ∧ pos < t_stop
        · by_cases hc : countN cigar_string.data ≤ 2
          · cases hgf : get_first_splice_junction cigar_string.data t_chrom pos with
            | none =>
              refine Or.inl ⟨?_, ?_⟩ <;> simp [stepLine, h5, h3, hp, hg, hc, hgf]
            | some j1 =>
              refine Or.inr ?_
              simp [stepLine, h5, h3, hp, hg, hc, hgf]
          · have h2 : (countN cigar_string.data == 2) = false := by
              simp only [beq_eq_false_iff_ne, ne_eq]
              omega
            refine Or.inl ⟨?_, ?_⟩ <;>
              simp [stepLine, secondBranch, h5, h3, hp, hg, hc, h2]
        · refine Or.inl ⟨?_, ?_⟩ <;> simp [stepLine, h5, h3, hp, hg]

theorem stepLine_ne_nameErr (t_chrom : String) (t_start t_stop : Int)
    (st : Table × Option Junction) (line : List String) :
    stepLine t_chrom t_start t_stop st line ≠ .error .nameErr := by
  obtain ⟨t, u⟩ := st
  cases h5 : pyIndex line 5 with
  | none => simp [stepLine, h5]
  | some cigar_string =>
    cases h3 : pyIndex line 3 with
    | none => simp [stepLine, h5, h3]
    | some pos_string =>
      cases hp : pyInt pos_string with
      | none => simp [stepLine, h5, h3, hp]
      | some pos =>
        by_cases hg : 0 < countN cigar_string.data ∧ t_start < pos ∧ pos < t_stop
        · by_cases hc : countN cigar_string.data ≤ 2
          · cases hgf : get_first_splice_junction cigar_string.data t_chrom pos with
            | none => simp [stepLine, h5, h3, hp, hg, hc, hgf]
            | some j1 =>
              by_cases h2 : (countN cigar_string.data == 2) = true
              · cases hgs : get_second_splice_junction cigar_string.data t_chrom pos
                    (get_end_position_from_junction j1) with
                | none =>
                  simp [stepLine, secondBranch, h5, h3, hp, hg, hc, hgf, h2, hgs]
                | some j2 =>
                  simp [stepLine, secondBranch, h5, h3, hp, hg, hc, hgf, h2, hgs]
              · simp [stepLine, secondBranch, h5, h3, hp, hg, hc, hgf, h2]
          · have h2 : (countN cigar_string.data == 2) = false := by
              simp only [beq_eq_false_iff_ne, ne_eq]
              omega
            simp [stepLine, secondBranch, h5, h3, hp, hg, hc, h2]
        · simp [stepLine, h5, h3, hp, hg]

theorem scanLines_fst_indep (t_chrom : String) (t_start t_stop : Int)
    (lines : List (List String)) :
    ∀ (t : Table) (u1 u2 : Option Junction),
      (scanLines t_chrom t_start t_stop lines (t, u1)).map Prod.fst =
        (scanLines t_chrom t_start t_stop lines (t, u2)).map Prod.fst := by
  induction lines with
  | nil => intro t u1 u2; rfl
  | cons line rest ih =>
    intro t u1 u2
    rcases stepLine_indep t_chrom t_start t_stop t u1 u2 line with ⟨h1, h2⟩ | heq
    · simp only [scanLines, h1, h2]
      exact ih t u1 u2
    · simp only [scanLines, heq]

theorem scanLines_ne_nameErr (t_chrom : String) (t_start t_stop : Int)
    (lines : List (List String)) :
    ∀ st, scanLines t_chrom t_start t_stop lines st ≠ .error .nameErr := by
  induction lines with
  | nil => intro st h; exact Except.noConfusion h
  | cons line rest ih =>
    intro st
    simp only [scanLines]
    cases hstep : stepLine t_chrom t_start t_stop st line with
    | error e =>
      intro h
      injection h with h1
      exact stepLine_ne_nameErr t_chrom t_start t_stop st line (by rw [hstep, h1])
    | ok st2 => exact ih st2

/-- C9 amended: the junction counts produced by the per-region scan never
depend on the value the first-junction variable carries into an iteration,
and the scan can never fail by reading that variable before assignment: the
second-junction branch acts only on a value assigned in the same iteration. -/
theorem c9_no_stale_read (t_chrom : String) (t_start t_stop : Int) (t : Table)
    (u1 u2 : Option Junction) (lines : List (List String)) :
    (scanLines t_chrom t_start t_stop lines (t, u1)).map Prod.fst =
      (scanLines t_chrom t_start t_stop lines (t, u2)).map Prod.fst ∧
    scanLines t_chrom t_start t_stop lines (t, u1) ≠ .error .nameErr :=
  ⟨scanLines_fst_indep t_chrom t_start t_stop lines t u1 u2,
    scanLines_ne_nameErr t_chrom t_start t_stop lines (t, u1)⟩

/-- Instrumented counterpart of secondBranch: the junction variable carries
a tag that is true exactly when the value was assigned in the current
iteration, and the returned flag is true exactly when the branch read a
value carried over from an earlier iteration. -/
def secondBranchTr (cigar : List Char) (t_chrom : String) (pos : Int)
    (st : Table × Option (Junction × Bool)) :
    Except PyErr ((Table × Option (Junction × Bool)) × Bool) :=
  if countN cigar == 2 then
    match st.2 with
    | none => .error .nameErr
    | some jf =>
      match get_second_splice_junction cigar t_chrom pos
          (get_end_position_from_junction jf.1) with
      | none => .ok (st, !jf.2)
      | some j2 => .ok ((incrTable st.1 j2, some (j2, true)), !jf.2)
  else .ok (st, false)

/-- Instrumented counterpart of stepLine: at the start of the iteration the
held value, if any, is re-tagged as carried over; a first-junction
assignment tags its value as current. -/
def stepLineTr (t_chrom : String) (t_start t_stop : Int)
    (st : Table × Option (Junction × Bool)) (line : List String) :
    Except PyErr ((Table × Option (Junction × Bool)) × Bool) :=
  let st0 := (st.1, st.2.map (fun p => (p.1, false)))
  match pyIndex line 5 with
  | none => .ok (st0, false)
  | some cigar_string =>
    match pyIndex line 3 with
    | none => .ok (st0, false)
    | some pos_string =>
      match pyInt pos_string with
      | none => .error .valueErr
      | some pos =>
        let cigar := cigar_string.data
        if 0 < countN cigar ∧ t_start < pos ∧ pos < t_stop then
          if countN cigar ≤ 2 then
            match get_first_splice_junction cigar t_chrom pos with
            | none => .ok (st0, false)
            | some j1 =>
              secondBranchTr cigar t_chrom pos (incrTable st0.1 j1, some (j1, true))
          else secondBranchTr cigar t_chrom pos st0
        else .ok (st0, false)

/-- Fold of stepLineTr accumulating whether any iteration read a
carried-over value. -/
def scanLinesTr (t_chrom : String) (t_start t_stop : Int) :
    List (List String) → Table × Option (Junction × Bool) → Bool →
      Except PyErr ((Table × Option (Junction × Bool)) × Bool)
  | [], st, fl => .ok (st, fl)
  | line :: rest, st, fl =>
    match stepLineTr t_chrom t_start t_stop st line with
    | .error e => .error e
    | .ok stb => scanLinesTr t_chrom t_start t_stop rest stb.1 (fl || stb.2)

/-- Projection from the instrumented state back to the plain scan state. -/
def eraseTag (st : Table × Option (Junction × Bool)) : Table × Option Junction :=
  (st.1, st.2.map Prod.fst)

/-- The instrumented step is the plain step up to erasing the tags. -/
theorem stepLineTr_erase (t_chrom : String) (t_start t_stop : Int)
    (st : Table × Option (Junction × Bool)) (line : List String) :
    (stepLineTr t_chrom t_start t_stop st line).map (fun r => eraseTag r.1) =
      stepLine t_chrom t_start t_stop (eraseTag st) line := by
  obtain ⟨t, u⟩ := st
  cases h5 : pyIndex line 5 with
  | none =>
    simp [stepLineTr, stepLine, Except.map, h5, eraseTag, Option.map_map, Function.comp_def]
  | some cigar_string =>
    cases h3 : pyIndex line 3 with
    | none =>
      simp [stepLineTr, stepLine, Except.map, h5, h3, eraseTag, Option.map_map,
        Function.comp_def]
    | some pos_string =>
      cases hp : pyInt pos_string with
      | none => simp [stepLineTr, stepLine, Except.map, h5, h3, hp]
      | some pos =>
        by_cases hg : 0 < countN cigar_string.data ∧ t_start < pos ∧ pos < t_stop
        · by_cases hc : countN cigar_string.data ≤ 2
          · cases hgf : get_first_splice_junction cigar_string.data t_chrom pos with
            | none =>
              simp [stepLineTr, stepLine, Except.map, h5, h3, hp, hg, hc, hgf, eraseTag,
                Option.map_map, Function.comp_def]
            | some j1 =>
              by_cases h2 : (countN cigar_string.data == 2) = true
              · cases hgs : get_second_splice_junction cigar_string.data t_chrom pos
                    (get_end_position_from_junction j1) with
                | none =>
                  simp [stepLineTr, stepLine, Except.map, secondBranchTr, secondBranch, h5,
                    h3, hp, hg, hc, hgf, h2, hgs, eraseTag]
                | some j2 =>
                  simp [stepLineTr, stepLine, Except.map, secondBranchTr, secondBranch, h5,
                    h3, hp, hg, hc, hgf, h2, hgs, eraseTag]
              · simp [stepLineTr, stepLine, Except.map, secondBranchTr, secondBranch, h5,
                  h3, hp, hg, hc, hgf, h2, eraseTag]
          · have h2 : (countN cigar_string.data == 2) = false := by
              simp only [beq_eq_false_iff_ne, ne_eq]
              omega
            simp [stepLineTr, stepLine, Except.map, secondBranchTr, secondBranch, h5, h3,
              hp, hg, hc, h2, eraseTag, Option.map_map, Function.comp_def]
        · simp [stepLineTr, stepLine, Except.map, h5, h3, hp, hg, eraseTag, Option.map_map,
            Function.comp_def]

theorem stepLineTr_flag (t_chrom : String) (t_start t_stop : Int)
    (st : Table × Option (Junction × Bool)) (line : List String) :
    (stepLineTr t_chrom t_start t_stop st line).map (fun r => r.2) ≠
      .ok true := by
  obtain ⟨t, u⟩ := st
  cases h5 : pyIndex line 5 with
  | none => simp [stepLineTr, Except.map, h5]
  | some cigar_string =>
    cases h3 : pyIndex line 3 with
    | none => simp [stepLineTr, Except.map, h5, h3]
    | some pos_string =>
      cases hp : pyInt pos_string with
      | none => simp [stepLineTr, Except.map, h5, h3, hp]
      | some pos =>
        by_cases hg : 0 < countN cigar_string.data ∧ t_start < pos ∧ pos < t_stop
        · by_cases hc : countN cigar_string.data ≤ 2
          · cases hgf : get_first_splice_junction cigar_string.data t_chrom pos with
            | none => simp [stepLineTr, Except.map, h5, h3, hp, hg, hc, hgf]
            | some j1 =>
              by_cases h2 : (countN cigar_string.data == 2) = true
              · cases hgs : get_second_splice_junction cigar_string.data t_chrom pos
                    (get_end_position_from_junction j1) with
                | none =>
                  simp [stepLineTr, Except.map, secondBranchTr, h5, h3, hp, hg, hc, hgf, h2,
                    hgs]
                | some j2 =>
                  simp [stepLineTr, Except.map, secondBranchTr, h5, h3, hp, hg, hc, hgf, h2,
                    hgs]
              · simp [stepLineTr, Except.map, secondBranchTr, h5, h3, hp, hg, hc, hgf, h2]
          · have h2 : (countN cigar_string.data == 2) = false := by
              simp only [beq_eq_false_iff_ne, ne_eq]
              omega
            simp [stepLineTr, Except.map, secondBranchTr, h5, h3, hp, hg, hc, h2]
        · simp [stepLineTr, Except.map, h5, h3, hp, hg]

theorem scanLinesTr_flag (t_chrom : String) (t_start t_stop : Int)
    (lines : List (List String)) :
    ∀ (st : Table × Option (Junction × Bool)) (fl : Bool)
      (r : (Table × Option (Junction × Bool)) × Bool),
      scanLinesTr t_chrom t_start t_stop lines st fl = .ok r → r.2 = fl := by
  induction lines with
  | nil =>
    intro st fl r h
    injection h with h1
    rw [← h1]
  | cons line rest ih =>
    intro st fl r h
    simp only [scanLinesTr] at h
    cases hstep : stepLineTr t_chrom t_start t_stop st line with
    | error e =>
      simp only [hstep] at h
      exact Except.noConfusion h
    | ok p =>
      simp only [hstep] at h
      have hb : p.2 = false := by
        have hne := stepLineTr_flag t_chrom t_start t_stop st line
        rw [hstep] at hne
        simpa [Except.map] using hne
      rw [hb, Bool.or_false] at h
      exact ih p.1 fl r h

/-- C9 counterexample: the claimed line sequence does not exist; for every
sequence of scanned lines, the instrumented scan, which flags exactly a
second-junction read of a value assigned in a prior iteration, never
reports such a read. -/
theorem c9_counterexample :
    ¬ ∃ (sam_lines : List (List String)) (t_chrom : String)
        (t_start t_stop : Int) (r : (Table × Option (Junction × Bool)) × Bool),
        scanLinesTr t_chrom t_start t_stop sam_lines ([], none) false = .ok r ∧
          r.2 = true := by
  rintro ⟨lines, tc, ts, tp, r, hok, hflag⟩
  have hf := scanLinesTr_flag tc ts tp lines ([], none) false r hok
  rw [hflag] at hf
  exact Bool.noConfusion hf

/-! Embedding of find_splice_junctions_for_gene and
summarize_splice_junctions.  The per-sample alignment retrieval is out of
scope: the gene-level function receives, per sample identifier, the list of
SAM lines that the retrieval would return. -/

/-- Model of the Python dictionary assignment on an association list:
replace the value of the key in place, or append the new pair at the end. -/
def pySet {α β : Type} [DecidableEq α] : List (α × β) → α → β → List (α × β)
  | [], k, v => [(k, v)]
  | (k0, v0) :: rest, k, v =>
    if k0 = k then (k0, v) :: rest else (k0, v0) :: pySet rest k v

/-- Association-list lookup, the Python d.get(k). -/
def pyGet {α β : Type} [DecidableEq α] : List (α × β) → α → Option β
  | [], _ => none
  | (k0, v0) :: rest, k => if k0 = k then some v0 else pyGet rest k

/-- Key of one gene-level event: gene name and type prefixed to the junction,
as in the Python key string built from gene, gene type and junction key. -/
structure GKey where
  gene : String
  gene_type : String
  junction : Junction
  deriving DecidableEq, Repr

/-- Per-sample counts of one gene-level event. -/
abbrev SampleCounts := List (String × Nat)

/-- Embedding of global_event_counts: gene-level events with their
per-sample counts, in insertion order. -/
abbrev Global := List (GKey × SampleCounts)

/-- Rendering of a gene-level event key, matching the comma-separated
Python key string used for sorting the output rows. -/
def keyString (k : GKey) : String :=
  k.gene ++ "," ++ k.gene_type ++ "," ++ k.junction.chrom ++ "," ++
    toString k.junction.start ++ "," ++ toString k.junction.stop

/-- Embedding of the nested defaultdict assignment
global_event_counts[key][sample_id] = count. -/
def setGlobal (g : Global) (k : GKey) (sid : String) (c : Nat) : Global :=
  match pyGet g k with
  | none => pySet g k [(sid, c)]
  | some inner => pySet g k (pySet inner sid c)

/-- Recording of one sample's junction table into the gene-level counts. -/
def addSampleCounts (g : Global) (t_gene t_gene_type sid : String)
    (tbl : Table) : Global :=
  tbl.foldl (fun g jc => setGlobal g ⟨t_gene, t_gene_type, jc.1⟩ sid jc.2) g

/-- Lexicographic comparison of character lists by code point, as Python
compares strings. -/
def charsLe : List Char → List Char → Bool
  | [], _ => true
  | _ :: _, [] => false
  | c :: cs, d :: ds =>
    if c = d then charsLe cs ds else decide (c.toNat < d.toNat)

/-- Model of the Python string comparison used by the sorted builtin. -/
def pyStrLe (a b : String) : Bool := charsLe a.data b.data

/-- Stable insertion of an element into a sorted list, auxiliary to the
model of the Python sorted builtin. -/
def pyInsert {α : Type} (le : α → α → Bool) (x : α) : List α → List α
  | [] => [x]
  | y :: ys => if le y x then y :: pyInsert le x ys else x :: y :: ys

/-- Model of the Python sorted builtin by insertion sort. -/
def pySorted {α : Type} (le : α → α → Bool) : List α → List α
  | [] => []
  | x :: xs => pyInsert le x (pySorted le xs)

/-- Sample identifiers in sorted order, as sorted_sample_ids in
find_splice_junctions_for_gene. -/
def sortedIds (samples : List (String × List (List String))) : List String :=
  pySorted pyStrLe (samples.map Prod.fst)

/-- One step of the accumulation loop of find_splice_junctions_for_gene:
scan one sample's lines and record its junction counts. -/
def geneStep (samples : List (String × List (List String)))
    (t_gene t_gene_type t_chrom : String) (t_start t_stop : Int) (g : Global)
    (sid : String) : Except PyErr Global :=
  match find_splice_junctions ((pyGet samples sid).getD []) t_chrom
      t_start t_stop with
  | .error e => .error e
  | .ok tbl => .ok (addSampleCounts g t_gene t_gene_type sid tbl)

/-- Embedding of the accumulation loop of find_splice_junctions_for_gene:
scan each sample's lines in sorted sample order and record the counts. -/
def buildGlobal (samples : List (String × List (List String)))
    (t_gene t_gene_type t_chrom : String) (t_start t_stop : Int) :
    Except PyErr Global :=
  (sortedIds samples).foldlM
    (geneStep samples t_gene t_gene_type t_chrom t_start t_stop) []

/-- One output row of summarize_splice_junctions: the event key fields, the
total count, the number of samples recorded, and the per-sample columns in
sample order. -/
structure OutRowD where
  gene : String
  gene_type : String
  junction : Junction
  total : Nat
  nsamp : Nat
  cols : List Nat
  deriving DecidableEq, Repr

/-- Embedding of summarize_splice_junctions: events in ascending key-string
order; the per-sample columns densify missing samples to zero; the total is
the sum of the columns, and the sample count is the size of the event's
per-sample dictionary. -/
def summarize_splice_junctions (g : Global) (sample_ids : List String) :
    List OutRowD :=
  (pySorted (fun a b => pyStrLe (keyString a.1) (keyString b.1)) g).map
    (fun ke =>
      let cols := sample_ids.map (fun s => (pyGet ke.2 s).getD 0)
      { gene := ke.1.gene, gene_type := ke.1.gene_type,
        junction := ke.1.junction, total := cols.sum,
        nsamp := ke.2.length, cols := cols })

/-- Embedding of find_splice_junctions_for_gene: build the gene-level counts
over all samples and summarise them. -/
def find_splice_junctions_for_gene
    (samples : List (String × List (List String)))
    (t_gene t_gene_type t_chrom : String) (t_start t_stop : Int) :
    Except PyErr (List OutRowD) :=
  (buildGlobal samples t_gene t_gene_type t_chrom t_start t_stop).map
    (fun g => summarize_splice_junctions g (sortedIds samples))

theorem mem_pySet {α β : Type} [DecidableEq α] (l : List (α × β)) (k : α)
    (v : β) : ∀ p ∈ pySet l k v, p ∈ l ∨ p = (k, v) := by
  induction l with
  | nil => intro p hp; simp [pySet] at hp; simp [hp]
  | cons q rest ih =>
    intro p hp
    obtain ⟨k0, v0⟩ := q
    simp only [pySet] at hp
    by_cases hk : k0 = k
    · rw [if_pos hk] at hp
      rcases List.mem_cons.mp hp with h | h
      · right; rw [h, hk]
      · left; exact List.mem_cons_of_mem _ h
    · rw [if_neg hk] at hp
      rcases List.mem_cons.mp hp with h | h
      · left; rw [h]; exact List.mem_cons_self _ _
      · rcases ih p h with h2 | h2
        · left; exact List.mem_cons_of_mem _ h2
        · right; exact h2

theorem keys_pySet_nodup {α β : Type} [DecidableEq α] (l : List (α × β))
    (k : α) (v : β) (h : (l.map Prod.fst).Nodup) :
    ((pySet l k v).map Prod.fst).Nodup := by
  induction l with
  | nil => simp [pySet]
  | cons q rest ih =>
    obtain ⟨k0, v0⟩ := q
    simp only [pySet]
    by_cases hk : k0 = k
    · rw [if_pos hk]
      simpa using h
    · rw [if_neg hk]
      simp only [List.map_cons, List.nodup_cons] at h ⊢
      refine ⟨?_, ih h.2⟩
      intro hmem
      obtain ⟨p, hp, hpk⟩ := List.mem_map.mp hmem
      rcases mem_pySet rest k v p hp with h2 | h2
      · exact h.1 (List.mem_map.mpr ⟨p, h2, hpk⟩)
      · rw [h2] at hpk
        exact hk hpk.symm

theorem pyGet_mem {α β : Type} [DecidableEq α] (l : List (α × β)) (k : α)
    (v : β) (h : pyGet l k = some v) : (k, v) ∈ l := by
  induction l with
  | nil => simp [pyGet] at h
  | cons q rest ih =>
    obtain ⟨k0, v0⟩ := q
    simp only [pyGet] at h
    by_cases hk : k0 = k
    · rw [if_pos hk] at h
      injection h with h1
      rw [← hk, ← h1]
      exact List.mem_cons_self _ _
    · rw [if_neg hk] at h
      exact List.mem_cons_of_mem _ (ih h)

/-- Invariant each gene-level table preserves: every recorded per-sample
count is positive and each event's sample keys are distinct. -/
def GlobalInv (g : Global) : Prop :=
  ∀ ki ∈ g, (∀ p ∈ ki.2, 0 < p.2) ∧ (ki.2.map Prod.fst).Nodup

theorem setGlobal_inv (g : Global) (k : GKey) (sid : String) (c : Nat)
    (hg : GlobalInv g) (hc : 0 < c) : GlobalInv (setGlobal g k sid c) := by
  intro ki hki
  simp only [setGlobal] at hki
  cases hget : pyGet g k with
  | none =>
    rw [hget] at hki
    rcases mem_pySet g k [(sid, c)] ki hki with h | h
    · exact hg ki h
    · rw [h]
      constructor
      · intro p hp
        simp only [List.mem_singleton] at hp
        rw [hp]
        exact hc
      · simp
  | some inner =>
    rw [hget] at hki
    rcases mem_pySet g k (pySet inner sid c) ki hki with h | h
    · exact hg ki h
    · rw [h]
      have hinner := hg (k, inner) (pyGet_mem g k inner hget)
      constructor
      · intro p hp
        rcases mem_pySet inner sid c p hp with h2 | h2
        · exact hinner.1 p h2
        · rw [h2]
          exact hc
      · exact keys_pySet_nodup inner sid c hinner.2

theorem addSampleCounts_inv (tbl : Table) (g : Global)
    (t_gene t_gene_type sid : String) (hg : GlobalInv g)
    (htbl : ∀ p ∈ tbl, 0 < p.2) :
    GlobalInv (addSampleCounts g t_gene t_gene_type sid tbl) := by
  induction tbl generalizing g with
  | nil => exact hg
  | cons jc rest ih =>
    simp only [addSampleCounts, List.foldl_cons]
    exact ih _ (setGlobal_inv g _ sid jc.2 hg (htbl jc (by simp)))
      (fun p hp => htbl p (by simp [hp]))

theorem incrTable_pos (t : Table) (j : Junction) (h : ∀ p ∈ t, 0 < p.2) :
    ∀ p ∈ incrTable t j, 0 < p.2 := by
  induction t with
  | nil =>
    intro p hp
    simp only [incrTable, List.mem_singleton] at hp
    rw [hp]
    exact Nat.one_pos
  | cons q rest ih =>
    obtain ⟨k, c⟩ := q
    intro p hp
    simp only [incrTable] at hp
    by_cases hk : k = j
    · rw [if_pos hk] at hp
      rcases List.mem_cons.mp hp with h2 | h2
      · rw [h2]
        exact Nat.succ_pos c
      · exact h p (List.mem_cons_of_mem _ h2)
    · rw [if_neg hk] at hp
      rcases List.mem_cons.mp hp with h2 | h2
      · rw [h2]
        exact h (k, c) (List.mem_cons_self _ _)
      · exact ih (fun q hq => h q (List.mem_cons_of_mem _ hq)) p h2

/-- The table produced by one scan step extends the incoming table by zero,
one or two junction increments. -/
theorem stepLine_table_shape (t_chrom : String) (t_start t_stop : Int)
    (st st2 : Table × Option Junction) (line : List String)
    (h : stepLine t_chrom t_start t_stop st line = .ok st2) :
    st2.1 = st.1 ∨ (∃ j, st2.1 = incrTable st.1 j) ∨
      (∃ j j2, st2.1 = incrTable (incrTable st.1 j) j2) := by
  cases h5 : pyIndex line 5 with
  | none =>
    simp only [stepLine, h5] at h
    injection h with h1
    rw [← h1]
    exact Or.inl rfl
  | some cigar_string =>
    cases h3 : pyIndex line 3 with
    | none =>
      simp only [stepLine, h5, h3] at h
      injection h with h1
      rw [← h1]
      exact Or.inl rfl
    | some pos_string =>
      cases hp : pyInt pos_string with
      | none => simp [stepLine, h5, h3, hp] at h
      | some pos =>
        by_cases hg : 0 < countN cigar_string.data ∧ t_start < pos ∧ pos < t_stop
        · by_cases hc : countN cigar_string.data ≤ 2
          · cases hgf : get_first_splice_junction cigar_string.data t_chrom pos with
            | none =>
              simp only [stepLine, h5, h3, hp, if_pos hg, if_pos hc, hgf] at h
              injection h with h1
              rw [← h1]
              exact Or.inl rfl
            | some j1 =>
              by_cases h2 : (countN cigar_string.data == 2) = true
              · cases hgs : get_second_splice_junction cigar_string.data t_chrom
                    pos (get_end_position_from_junction j1) with
                | none =>
                  simp only [stepLine, secondBranch, h5, h3, hp, if_pos hg,
                    if_pos hc, hgf, h2, if_true, hgs] at h
                  injection h with h1
                  rw [← h1]
                  exact Or.inr (Or.inl ⟨j1, rfl⟩)
                | some j2 =>
                  simp only [stepLine, secondBranch, h5, h3, hp, if_pos hg,
                    if_pos hc, hgf, h2, if_true, hgs] at h
                  injection h with h1
                  rw [← h1]
                  exact Or.inr (Or.inr ⟨j1, j2, rfl⟩)
              · simp only [stepLine, secondBranch, h5, h3, hp, if_pos hg,
                  if_pos hc, hgf, h2, if_false] at h
                injection h with h1
                rw [← h1]
                exact Or.inr (Or.inl ⟨j1, rfl⟩)
          · have h2 : (countN cigar_string.data == 2) = false := by
              simp only [beq_eq_false_iff_ne, ne_eq]
              omega
            simp only [stepLine, secondBranch, h5, h3, hp, if_pos hg,
              if_neg hc, h2, Bool.false_eq_true, if_false] at h
            injection h with h1
            rw [← h1]
            exact Or.inl rfl
        · simp only [stepLine, h5, h3, hp, if_neg hg] at h
          injection h with h1
          rw [← h1]
          exact Or.inl rfl

theorem scanLines_pos (t_chrom : String) (t_start t_stop : Int)
    (lines : List (List String)) :
    ∀ st st2, (∀ p ∈ st.1, 0 < p.2) →
      scanLines t_chrom t_start t_stop lines st = .ok st2 →
      ∀ p ∈ st2.1, 0 < p.2 := by
  induction lines with
  | nil =>
    intro st st2 hpos h
    injection h with h1
    rw [← h1]
    exact hpos
  | cons line rest ih =>
    intro st st2 hpos h
    simp only [scanLines] at h
    cases hstep : stepLine t_chrom t_start t_stop st line with
    | error e =>
      simp only [hstep] at h
      exact Except.noConfusion h
    | ok stm =>
      simp only [hstep] at h
      have hposm : ∀ p ∈ stm.1, 0 < p.2 := by
        rcases stepLine_table_shape t_chrom t_start t_stop st stm line hstep with
          h1 | ⟨j, h1⟩ | ⟨j, j2, h1⟩
        · rw [h1]; exact hpos
        · rw [h1]; exact incrTable_pos st.1 j hpos
        · rw [h1]; exact incrTable_pos _ j2 (incrTable_pos st.1 j hpos)
      exact ih stm st2 hposm h

theorem find_splice_junctions_pos (sam_lines : List (List String))
    (t_chrom : String) (t_start t_stop : Int) (tbl : Table)
    (h : find_splice_junctions sam_lines t_chrom t_start t_stop = .ok tbl) :
    ∀ p ∈ tbl, 0 < p.2 := by
  simp only [find_splice_junctions] at h
  cases hscan : scanLines t_chrom t_start t_stop sam_lines ([], none) with
  | error e =>
    rw [hscan] at h
    exact Except.noConfusion h
  | ok st2 =>
    rw [hscan] at h
    injection h with h1
    rw [← h1]
    exact scanLines_pos t_chrom t_start t_stop sam_lines ([], none) st2
      (by simp) hscan

theorem foldGene_inv (samples : List (String × List (List String)))
    (t_gene t_gene_type t_chrom : String) (t_start t_stop : Int)
    (ids : List String) :
    ∀ g0 g1 : Global, GlobalInv g0 →
      ids.foldlM (geneStep samples t_gene t_gene_type t_chrom t_start t_stop)
        g0 = .ok g1 → GlobalInv g1 := by
  induction ids with
  | nil =>
    intro g0 g1 h0 hfold
    simp only [List.foldlM] at hfold
    injection hfold with h1
    rw [← h1]
    exact h0
  | cons sid rest ih =>
    intro g0 g1 h0 hfold
    rw [List.foldlM_cons] at hfold
    cases hfs : find_splice_junctions ((pyGet samples sid).getD []) t_chrom
        t_start t_stop with
    | error e =>
      simp only [geneStep, hfs] at hfold
      exact Except.noConfusion hfold
    | ok tbl =>
      simp only [geneStep, hfs] at hfold
      exact ih (addSampleCounts g0 t_gene t_gene_type sid tbl) g1
        (addSampleCounts_inv tbl g0 t_gene t_gene_type sid h0
          (find_splice_junctions_pos _ t_chrom t_start t_stop tbl hfs)) hfold

theorem buildGlobal_inv (samples : List (String × List (List String)))
    (t_gene t_gene_type t_chrom : String) (t_start t_stop : Int) (g : Global)
    (h : buildGlobal samples t_gene t_gene_type t_chrom t_start t_stop = .ok g) :
    GlobalInv g := by
  simp only [buildGlobal] at h
  exact foldGene_inv samples t_gene t_gene_type t_chrom t_start t_stop
    (sortedIds samples) [] g (by intro ki hki; simp at hki) h

theorem pyInsert_perm {α : Type} (le : α → α → Bool) (x : α) (l : List α) :
    (pyInsert le x l).Perm (x :: l) := by
  induction l with
  | nil => exact List.Perm.refl _
  | cons y ys ih =>
    simp only [pyInsert]
    by_cases hle : le y x = true
    · rw [if_pos hle]
      exact (ih.cons y).trans (List.Perm.swap x y ys)
    · rw [if_neg hle]

theorem pySorted_perm {α : Type} (le : α → α → Bool) (l : List α) :
    (pySorted le l).Perm l := by
  induction l with
  | nil => exact List.Perm.refl _
  | cons x xs ih =>
    exact (pyInsert_perm le x (pySorted le xs)).trans (ih.cons x)

/-- C10: in every row written by summarize_splice_junctions for gene-level
counts built by find_splice_junctions_for_gene, the total-seen field equals
the sum of the per-sample columns of the row (absent samples densified to
zero), and the samples-seen field equals the number of samples recorded for
the event, whose keys are distinct and whose counts are all positive. -/
theorem c10_row_invariants (samples : List (String × List (List String)))
    (t_gene t_gene_type t_chrom : String) (t_start t_stop : Int) (g : Global)
    (hok : buildGlobal samples t_gene t_gene_type t_chrom t_start t_stop =
      .ok g) :
    ∀ row ∈ summarize_splice_junctions g (sortedIds samples),
      row.total = row.cols.sum ∧
        ∃ inner, (GKey.mk row.gene row.gene_type row.junction, inner) ∈ g ∧
          row.nsamp = inner.length ∧ (inner.map Prod.fst).Nodup ∧
          ∀ p ∈ inner, 0 < p.2 := by
  intro row hrow
  have hinv := buildGlobal_inv samples t_gene t_gene_type t_chrom t_start
    t_stop g hok
  simp only [summarize_splice_junctions, List.mem_map] at hrow
  obtain ⟨ke, hke, hrow⟩ := hrow
  have hkeg : ke ∈ g := by
    have hperm := pySorted_perm
      (fun a b => pyStrLe (keyString a.1) (keyString b.1)) g
    exact hperm.mem_iff.mp hke
  have hkinv := hinv ke hkeg
  constructor
  · rw [← hrow]
  · refine ⟨ke.2, ?_, ?_, hkinv.2, hkinv.1⟩
    · rw [← hrow]
      simpa using hkeg
    · rw [← hrow]

/-- Witness for c10_row_invariants at a concrete two-sample input. -/
theorem c10_row_invariants_witness :
    ∃ g, buildGlobal
        [("s1", [["r", "0", "c", "10", "60", "33M20N8M"]]),
          ("s2", [["r", "0", "c", "10", "60", "33M20N8M"],
            ["r", "0", "c", "10", "60", "33M20N8M"]])]
        "NEB" "coding" "1" 0 100 = .ok g ∧
      ∀ row ∈ summarize_splice_junctions g
          (sortedIds [("s1", [["r", "0", "c", "10", "60", "33M20N8M"]]),
            ("s2", [["r", "0", "c", "10", "60", "33M20N8M"],
              ["r", "0", "c", "10", "60", "33M20N8M"]])]),
        row.total = row.cols.sum ∧
          ∃ inner, (GKey.mk row.gene row.gene_type row.junction, inner) ∈ g ∧
            row.nsamp = inner.length ∧ (inner.map Prod.fst).Nodup ∧
            ∀ p ∈ inner, 0 < p.2 := by
  refine ⟨[(GKey.mk "NEB" "coding" ⟨"1", 43, 63⟩, [("s1", 1), ("s2", 2)])],
    by decide, ?_⟩
  exact c10_row_invariants _ "NEB" "coding" "1" 0 100 _ (by decide)

/-! Embedding of SpliceJunctionNormalization.py.  Junction records carry the
fields read from the discovery output (gene, type, chromosome, coordinates,
totals) with the per-sample counts column modelled as its parsed list of
sample and count pairs; the Python dictionaries are association lists. -/

/-- Python str.strip with a character set: remove any of the given
characters from both ends of the string. -/
def stripChars (cs : List Char) (bad : List Char) : List Char :=
  ((cs.dropWhile (fun c => bad.contains c)).reverse.dropWhile
    (fun c => bad.contains c)).reverse

/-- Junction key string of the normalization stage, the Python format
chrom:start-stop. -/
def junctionKey (chrom : String) (start stop : Int) : String :=
  chrom ++ ":" ++ toString start ++ "-" ++ toString stop

/-- Endpoint key string, the Python format chrom:position. -/
def posKey (chrom : String) (p : Int) : String := chrom ++ ":" ++ toString p

/-- One step of make_annotated_junction_set on one transcript-model line,
already split into fields: strip the chr characters from the chromosome,
convert the coordinate fields, and add the exact key, the three symmetric
shifts and the two asymmetric flank variants.  A missing field is the
uncaught IndexError, a non-numeric coordinate the uncaught ValueError. -/
def annStep (chrom_col start_col stop_col : Nat) (acc : List String)
    (fields : List String) : Except PyErr (List String) :=
  match pyIndex fields chrom_col with
  | none => .error .indexErr
  | some chromF =>
    let chrom := String.mk (stripChars chromF.data ['c', 'h', 'r'])
    match pyIndex fields start_col with
    | none => .error .indexErr
    | some startF =>
      match pyInt startF with
      | none => .error .valueErr
      | some start =>
        match pyIndex fields stop_col with
        | none => .error .indexErr
        | some stopF =>
          match pyInt stopF with
          | none => .error .valueErr
          | some stop =>
            .ok (acc ++ [junctionKey chrom (start - 1) (stop - 1),
              junctionKey chrom start stop,
              junctionKey chrom (start + 1) (stop + 1),
              junctionKey chrom (start - 1) (stop + 1),
              junctionKey chrom (start + 1) (stop - 1)])

/-- Embedding of make_annotated_junction_set: the union over all
transcript-model lines of each junction's tolerance keys.  The Python set is
modelled by a list queried by membership. -/
def make_annotated_junction_set (transcript_model : List (List String))
    (chrom_col start_col stop_col : Nat) : Except PyErr (List String) :=
  transcript_model.foldlM (annStep chrom_col start_col stop_col) []

theorem annStep_mono (cc sc pc : Nat) (acc acc2 : List String)
    (fields : List String) (h : annStep cc sc pc acc fields = .ok acc2) :
    ∀ x ∈ acc, x ∈ acc2 := by
  cases h1 : pyIndex fields cc with
  | none => simp [annStep, h1] at h
  | some chromF =>
    cases h2 : pyIndex fields sc with
    | none => simp [annStep, h1, h2] at h
    | some startF =>
      cases h3 : pyInt startF with
      | none => simp [annStep, h1, h2, h3] at h
      | some start =>
        cases h4 : pyIndex fields pc with
        | none => simp [annStep, h1, h2, h3, h4] at h
        | some stopF =>
          cases h5 : pyInt stopF with
          | none => simp [annStep, h1, h2, h3, h4, h5] at h
          | some stop =>
            simp only [annStep, h1, h2, h3, h4, h5] at h
            injection h with h6
            intro x hx
            rw [← h6]
            exact List.mem_append_left _ hx

theorem foldAnn_mono (cc sc pc : Nat) (lines : List (List String)) :
    ∀ acc S, lines.foldlM (annStep cc sc pc) acc = .ok S →
      ∀ x ∈ acc, x ∈ S := by
  induction lines with
  | nil =>
    intro acc S h
    injection h with h1
    rw [← h1]
    exact fun x hx => hx
  | cons l rest ih =>
    intro acc S h
    rw [List.foldlM_cons] at h
    cases hstep : annStep cc sc pc acc l with
    | error e =>
      simp only [hstep] at h
      exact Except.noConfusion h
    | ok acc2 =>
      simp only [hstep] at h
      intro x hx
      exact ih acc2 S h x (annStep_mono cc sc pc acc acc2 l hstep x hx)

theorem foldAnn_line (chrom_col start_col stop_col : Nat)
    (lines : List (List String)) :
    ∀ acc S, lines.foldlM (annStep chrom_col start_col stop_col) acc = .ok S →
      ∀ fields ∈ lines, ∀ (chromF startF stopF : String) (start stop : Int),
        pyIndex fields chrom_col = some chromF →
        pyIndex fields start_col = some startF →
        pyIndex fields stop_col = some stopF →
        pyInt startF = some start → pyInt stopF = some stop →
        ∀ k ∈ [junctionKey (String.mk (stripChars chromF.data ['c', 'h', 'r']))
            (start - 1) (stop - 1),
          junctionKey (String.mk (stripChars chromF.data ['c', 'h', 'r']))
            start stop,
          junctionKey (String.mk (stripChars chromF.data ['c', 'h', 'r']))
            (start + 1) (stop + 1),
          junctionKey (String.mk (stripChars chromF.data ['c', 'h', 'r']))
            (start - 1) (stop + 1),
          junctionKey (String.mk (stripChars chromF.data ['c', 'h', 'r']))
            (start + 1) (stop - 1)], k ∈ S := by
  induction lines with
  | nil =>
    intro acc S hok fields hmem
    simp at hmem
  | cons l rest ih =>
    intro acc S hok fields hmem chromF startF stopF start stop hcf hsf hpf hs
      hp k hk
    rw [List.foldlM_cons] at hok
    cases hstep : annStep chrom_col start_col stop_col acc l with
    | error e =>
      simp only [hstep] at hok
      exact Except.noConfusion hok
    | ok acc2 =>
      simp only [hstep] at hok
      have hok2 : rest.foldlM (annStep chrom_col start_col stop_col) acc2 =
          .ok S := hok
      rcases List.mem_cons.mp hmem with hl | hl
      · have hin : k ∈ acc2 := by
          rw [← hl] at hstep
          simp only [annStep, hcf, hsf, hs, hpf, hp] at hstep
          injection hstep with h6
          rw [← h6]
          exact List.mem_append_right _ hk
        exact foldAnn_mono chrom_col start_col stop_col rest acc2 S hok2 k hin
      · exact ih acc2 S hok2 fields hl chromF startF stopF start stop hcf hsf
          hpf hs hp k hk

/-- C7: flank closure of the annotated junction set.  For every
transcript-model line fed to the set builder whose chromosome, start and
stop fields are present and numeric, the built set contains the exact key
and all four one-base shift and flank variants; membership of the exact
junction hence implies membership of the variants. -/
theorem c7_flank_closure (transcript_model : List (List String))
    (chrom_col start_col stop_col : Nat) (S : List String)
    (hok : make_annotated_junction_set transcript_model chrom_col start_col
      stop_col = .ok S)
    (fields : List String) (hmem : fields ∈ transcript_model)
    (chromF startF stopF : String) (start stop : Int)
    (hcf : pyIndex fields chrom_col = some chromF)
    (hsf : pyIndex fields start_col = some startF)
    (hpf : pyIndex fields stop_col = some stopF)
    (hs : pyInt startF = some start) (hp : pyInt stopF = some stop) :
    junctionKey (String.mk (stripChars chromF.data ['c', 'h', 'r'])) start
        stop ∈ S ∧
      junctionKey (String.mk (stripChars chromF.data ['c', 'h', 'r']))
        (start + 1) (stop + 1) ∈ S ∧
      junctionKey (String.mk (stripChars chromF.data ['c', 'h', 'r']))
        (start - 1) (stop - 1) ∈ S ∧
      junctionKey (String.mk (stripChars chromF.data ['c', 'h', 'r']))
        (start - 1) (stop + 1) ∈ S ∧
      junctionKey (String.mk (stripChars chromF.data ['c', 'h', 'r']))
        (start + 1) (stop - 1) ∈ S := by
  have h := foldAnn_line chrom_col start_col stop_col transcript_model [] S
    hok fields hmem chromF startF stopF start stop hcf hsf hpf hs hp
  exact ⟨h _ (by simp), h _ (by simp), h _ (by simp), h _ (by simp),
    h _ (by simp)⟩

/-- Witness for c7_flank_closure at a concrete transcript-model line. -/
theorem c7_flank_closure_witness :
    junctionKey "1" 1221 1345 ∈ ["1:1220-1344", "1:1221-1345", "1:1222-1346",
        "1:1220-1346", "1:1222-1344"] ∧
      junctionKey "1" 1222 1346 ∈ ["1:1220-1344", "1:1221-1345",
        "1:1222-1346", "1:1220-1346", "1:1222-1344"] ∧
      junctionKey "1" 1220 1344 ∈ ["1:1220-1344", "1:1221-1345",
        "1:1222-1346", "1:1220-1346", "1:1222-1344"] ∧
      junctionKey "1" 1220 1346 ∈ ["1:1220-1344", "1:1221-1345",
        "1:1222-1346", "1:1220-1346", "1:1222-1344"] ∧
      junctionKey "1" 1222 1344 ∈ ["1:1220-1344", "1:1221-1345",
        "1:1222-1346", "1:1220-1346", "1:1222-1344"] := by
  have h := c7_flank_closure [["chr1", "1221", "1345"]] 0 1 2
    ["1:1220-1344", "1:1221-1345", "1:1222-1346", "1:1220-1346",
      "1:1222-1344"] (by decide) ["chr1", "1221", "1345"] (by decide)
    "chr1" "1221" "1345" 1221 1345 (by decide) (by decide) (by decide)
    (by decide) (by decide)
  simpa using h

/-- One junction record of the normalization input, as produced by
get_junctions from a discovery output line.  The per-sample counts column is
modelled as its parsed list of sample and count pairs; the totals columns
are carried through as the strings they are in the file. -/
structure JRec where
  gene : String
  gene_type : String
  chrom : String
  start : Int
  stop : Int
  ntimes : String
  nsamp : String
  samptimes : List (String × Int)
  deriving DecidableEq, Repr

/-- Embedding of dictify_sample_counts_string: build the per-sample
dictionary from the sample and count pairs of the column; a repeated sample
keeps the last count, as the Python dictionary assignment does. -/
def dictify_sample_counts_string (l : List (String × Int)) :
    List (String × Int) :=
  l.foldl (fun d p => pySet d p.1 p.2) []

/-- The annotated-counts index: endpoint key to per-sample maximum counts. -/
abbrev AC := List (String × List (String × Int))

/-- Nested lookup annotated_counts[pos].get(sample) on the index. -/
def find2 (ac : AC) (pk s : String) : Option Int :=
  match pyGet ac pk with
  | none => none
  | some inner => pyGet inner s

/-- Nested defaultdict assignment annotated_counts[pos][sample] = v. -/
def set2 (ac : AC) (pk s : String) (v : Int) : AC :=
  match pyGet ac pk with
  | none => pySet ac pk [(s, v)]
  | some inner => pySet ac pk (pySet inner s v)

/-- Embedding of the count update of get_annotated_counts: assign the new
count when no count is stored or the stored count is zero (both falsy in
Python), otherwise keep the larger. -/
def updateCount (cur : Option Int) (c : Int) : Int :=
  match cur with
  | none => c
  | some e => if e = 0 then c else if c > e then c else e

/-- Inner loop of get_annotated_counts: fold one endpoint's update over all
samples of the junction's per-sample dictionary. -/
def updatePos (ac : AC) (pk : String) (pairs : List (String × Int)) : AC :=
  pairs.foldl
    (fun ac p => set2 ac pk p.1 (updateCount (find2 ac pk p.1) p.2)) ac

/-- Body of the junction loop of get_annotated_counts: a junction whose full
key is in the annotated set updates first its start endpoint and then its
stop endpoint; other junctions contribute nothing. -/
def procJunction (annotated_junctions : List String) (ac : AC) (j : JRec) :
    AC :=
  if annotated_junctions.contains (junctionKey j.chrom j.start j.stop) then
    updatePos
      (updatePos ac (posKey j.chrom j.start)
        (dictify_sample_counts_string j.samptimes))
      (posKey j.chrom j.stop) (dictify_sample_counts_string j.samptimes)
  else ac

/-- Embedding of get_annotated_counts: fold the junction loop over all
discovered junctions starting from an empty index. -/
def get_annotated_counts (splice_junctions : List JRec)
    (annotated_junctions : List String) : AC :=
  splice_junctions.foldl (procJunction annotated_junctions) []

/-- Count contributed by one discovered junction to one endpoint key and
sample: its stored count when the junction's full key is annotated, one of
its endpoints is the key, and the sample appears in its counts. -/
def contribOf (annotated : List String) (pk s : String) (j : JRec) :
    Option Int :=
  if annotated.contains (junctionKey j.chrom j.start j.stop) &&
      (posKey j.chrom j.start == pk || posKey j.chrom j.stop == pk) then
    pyGet (dictify_sample_counts_string j.samptimes) s
  else none

/-- All counts contributed to one endpoint key and sample, in order. -/
def endpointContribs (sjs : List JRec) (annotated : List String)
    (pk s : String) : List Int :=
  sjs.filterMap (contribOf annotated pk s)

/-- Maximum combination of two optional counts. -/
def mergeOpt : Option Int → Option Int → Option Int
  | none, b => b
  | some a, none => some a
  | some a, some b => some (max a b)

/-- Maximum of a list of counts, none when empty. -/
def listMax : List Int → Option Int
  | [] => none
  | c :: cs => mergeOpt (some c) (listMax cs)

theorem pyGet_pySet_same {α β : Type} [DecidableEq α] (l : List (α × β))
    (k : α) (v : β) : pyGet (pySet l k v) k = some v := by
  induction l with
  | nil => simp [pySet, pyGet]
  | cons q rest ih =>
    obtain ⟨k0, v0⟩ := q
    by_cases hk : k0 = k
    · simp [pySet, pyGet, hk]
    · simp [pySet, pyGet, hk, ih]

theorem pyGet_pySet_other {α β : Type} [DecidableEq α] (l : List (α × β))
    (k : α) (v : β) (k2 : α) (h : k2 ≠ k) :
    pyGet (pySet l k v) k2 = pyGet l k2 := by
  have hne : ¬(k = k2) := fun hh => h hh.symm
  induction l with
  | nil =>
    simp only [pySet, pyGet]
    rw [if_neg hne]
  | cons q rest ih =>
    obtain ⟨k0, v0⟩ := q
    simp only [pySet]
    by_cases hk : k0 = k
    · rw [if_pos hk]
      simp only [pyGet]
      have hke : ¬(k0 = k2) := by rw [hk]; exact hne
      rw [if_neg hke, if_neg hke]
    · rw [if_neg hk]
      simp only [pyGet]
      by_cases hk2 : k0 = k2
      · rw [if_pos hk2, if_pos hk2]
      · rw [if_neg hk2, if_neg hk2, ih]

theorem pyGet_not_mem {α β : Type} [DecidableEq α] (l : List (α × β)) (k : α)
    (h : k ∉ l.map Prod.fst) : pyGet l k = none := by
  induction l with
  | nil => rfl
  | cons q rest ih =>
    obtain ⟨k0, v0⟩ := q
    simp only [List.map_cons, List.mem_cons] at h
    push_neg at h
    simp only [pyGet]
    rw [if_neg (fun hh => h.1 hh.symm)]
    exact ih h.2

theorem find2_set2_same (ac : AC) (pk s : String) (v : Int) :
    find2 (set2 ac pk s v) pk s = some v := by
  simp only [set2]
  cases hg : pyGet ac pk with
  | none => simp [find2, pyGet_pySet_same, pyGet]
  | some inner => simp [find2, pyGet_pySet_same]

theorem find2_set2_diffpk (ac : AC) (pk s : String) (v : Int)
    (pk2 s2 : String) (h : pk2 ≠ pk) :
    find2 (set2 ac pk s v) pk2 s2 = find2 ac pk2 s2 := by
  simp only [set2]
  cases hg : pyGet ac pk <;>
    simp [find2, pyGet_pySet_other _ pk _ pk2 h, hg]

theorem find2_set2_diffs (ac : AC) (pk s : String) (v : Int) (s2 : String)
    (h : s2 ≠ s) : find2 (set2 ac pk s v) pk s2 = find2 ac pk s2 := by
  simp only [set2]
  cases hg : pyGet ac pk with
  | none =>
    simp only [find2, pyGet_pySet_same, hg]
    simp only [pyGet]
    rw [if_neg (fun hh => h hh.symm)]
  | some inner =>
    simp only [find2, pyGet_pySet_same, hg]
    exact pyGet_pySet_other inner s v s2 h

theorem find2_updatePos (pk : String) (pairs : List (String × Int))
    (hnd : (pairs.map Prod.fst).Nodup) :
    ∀ (ac : AC) (pk2 s : String),
      find2 (updatePos ac pk pairs) pk2 s =
        if pk2 = pk then
          match pyGet pairs s with
          | none => find2 ac pk s
          | some c => some (updateCount (find2 ac pk s) c)
        else find2 ac pk2 s := by
  induction pairs with
  | nil =>
    intro ac pk2 s
    by_cases h : pk2 = pk <;> simp [updatePos, pyGet, h]
  | cons p rest ih =>
    intro ac pk2 s
    obtain ⟨s0, c0⟩ := p
    simp only [List.map_cons, List.nodup_cons] at hnd
    have hs0 : s0 ∉ rest.map Prod.fst := hnd.1
    simp only [updatePos, List.foldl_cons]
    have hrw : rest.foldl
        (fun ac p => set2 ac pk p.1 (updateCount (find2 ac pk p.1) p.2))
        (set2 ac pk s0 (updateCount (find2 ac pk s0) c0)) =
      updatePos (set2 ac pk s0 (updateCount (find2 ac pk s0) c0)) pk rest :=
      rfl
    rw [hrw, ih hnd.2]
    by_cases hpk : pk2 = pk
    · rw [if_pos hpk, if_pos hpk]
      by_cases hss : s = s0
      · rw [hss]
        have hpg : pyGet ((s0, c0) :: rest) s0 = some c0 := by
          simp [pyGet]
        rw [hpg, pyGet_not_mem rest s0 hs0, find2_set2_same]
      · have hget : pyGet ((s0, c0) :: rest) s = pyGet rest s := by
          simp only [pyGet]
          rw [if_neg (fun hh => hss hh.symm)]
        rw [hget]
        rw [find2_set2_diffs ac pk s0 _ s hss]
    · rw [if_neg hpk, if_neg hpk]
      rw [find2_set2_diffpk ac pk s0 _ pk2 s hpk]

theorem dictify_nodup (l : List (String × Int)) :
    ((dictify_sample_counts_string l).map Prod.fst).Nodup := by
  suffices h : ∀ d : List (String × Int), (d.map Prod.fst).Nodup →
      ((l.foldl (fun d p => pySet d p.1 p.2) d).map Prod.fst).Nodup by
    exact h [] (by simp)
  induction l with
  | nil => intro d hd; exact hd
  | cons p rest ih =>
    intro d hd
    simp only [List.foldl_cons]
    exact ih _ (keys_pySet_nodup d p.1 p.2 hd)

theorem mergeOpt_none_right (a : Option Int) : mergeOpt a none = a := by
  cases a <;> rfl

theorem mergeOpt_assoc (a b c : Option Int) :
    mergeOpt (mergeOpt a b) c = mergeOpt a (mergeOpt b c) := by
  cases a <;> cases b <;> cases c <;> simp [mergeOpt, max_assoc]

theorem updateCount_merge (cur : Option Int) (c : Int)
    (hcur : ∀ v, cur = some v → 0 ≤ v) (hc : 0 ≤ c) :
    some (updateCount cur c) = mergeOpt cur (some c) := by
  cases cur with
  | none => rfl
  | some e =>
    have he : 0 ≤ e := hcur e rfl
    simp only [updateCount, mergeOpt]
    congr 1
    split_ifs <;> omega

theorem updateCount_idem (cur : Option Int) (c : Int)
    (hcur : ∀ v, cur = some v → 0 ≤ v) (_hc : 0 ≤ c) :
    updateCount (some (updateCount cur c)) c = updateCount cur c := by
  cases cur with
  | none =>
    simp only [updateCount]
    split_ifs <;> omega
  | some e =>
    have he : 0 ≤ e := hcur e rfl
    simp only [updateCount]
    split_ifs <;> omega

theorem contribOf_nonneg (annotated : List String) (pk s : String) (j : JRec)
    (hjn : ∀ p ∈ dictify_sample_counts_string j.samptimes, 0 ≤ p.2) :
    ∀ c, contribOf annotated pk s j = some c → 0 ≤ c := by
  intro c hc
  simp only [contribOf] at hc
  split at hc
  · exact hjn (s, c) (pyGet_mem _ s c hc)
  · exact Option.noConfusion hc

theorem find2_procJunction (annotated : List String) (ac : AC) (j : JRec)
    (pk s : String)
    (hac : ∀ pk2 s2 v, find2 ac pk2 s2 = some v → 0 ≤ v)
    (hjn : ∀ p ∈ dictify_sample_counts_string j.samptimes, 0 ≤ p.2) :
    find2 (procJunction annotated ac j) pk s =
      mergeOpt (find2 ac pk s) (contribOf annotated pk s j) := by
  have hnd := dictify_nodup j.samptimes
  by_cases hann :
      annotated.contains (junctionKey j.chrom j.start j.stop) = true
  case neg =>
    have hmem : junctionKey j.chrom j.start j.stop ∉ annotated := by
      simpa using hann
    simp [procJunction, contribOf, hmem, mergeOpt_none_right]
  case pos =>
    simp only [procJunction, contribOf, hann, if_true, Bool.true_and]
    rw [find2_updatePos (posKey j.chrom j.stop) _ hnd]
    by_cases h2 : pk = posKey j.chrom j.stop
    · rw [if_pos h2]
      have hb2 : (posKey j.chrom j.stop == pk) = true := by
        rw [beq_iff_eq]
        exact h2.symm
      rw [find2_updatePos (posKey j.chrom j.start) _ hnd]
      by_cases h1 : posKey j.chrom j.stop = posKey j.chrom j.start
      · rw [if_pos h1]
        cases hpg : pyGet (dictify_sample_counts_string j.samptimes) s with
        | none =>
          simp only [hpg]
          rw [show find2 ac (posKey j.chrom j.start) s = find2 ac pk s by
            rw [h2, h1]]
          simp [hb2, hpg, mergeOpt_none_right]
        | some c =>
          have hc : 0 ≤ c :=
            hjn (s, c) (pyGet_mem _ s c hpg)
          have hcur : ∀ v, find2 ac (posKey j.chrom j.start) s = some v →
              0 ≤ v := fun v hv => hac _ s v hv
          simp only [hpg]
          rw [updateCount_idem _ c hcur hc]
          rw [show find2 ac (posKey j.chrom j.start) s = find2 ac pk s by
            rw [h2, h1]]
          rw [updateCount_merge _ c (fun v hv => hac pk s v hv) hc]
          simp [hb2, hpg]
      · rw [if_neg h1]
        cases hpg : pyGet (dictify_sample_counts_string j.samptimes) s with
        | none =>
          simp only [hpg]
          rw [← h2]
          simp [hb2, hpg, mergeOpt_none_right]
        | some c =>
          have hc : 0 ≤ c := hjn (s, c) (pyGet_mem _ s c hpg)
          simp only [hpg]
          rw [← h2]
          rw [updateCount_merge _ c (fun v hv => hac pk s v hv) hc]
          simp [hb2, hpg]
    · rw [if_neg h2]
      have hb2 : (posKey j.chrom j.stop == pk) = false := by
        rw [beq_eq_false_iff_ne]
        exact fun hh => h2 hh.symm
      rw [find2_updatePos (posKey j.chrom j.start) _ hnd]
      by_cases h1 : pk = posKey j.chrom j.start
      · rw [if_pos h1]
        have hb1 : (posKey j.chrom j.start == pk) = true := by
          rw [beq_iff_eq]
          exact h1.symm
        cases hpg : pyGet (dictify_sample_counts_string j.samptimes) s with
        | none =>
          simp only [hpg]
          rw [← h1]
          simp [hb1, hb2, hpg, mergeOpt_none_right]
        | some c =>
          have hc : 0 ≤ c := hjn (s, c) (pyGet_mem _ s c hpg)
          simp only [hpg]
          rw [← h1]
          rw [updateCount_merge _ c (fun v hv => hac pk s v hv) hc]
          simp [hb1, hb2, hpg]
      · rw [if_neg h1]
        have hb1 : (posKey j.chrom j.start == pk) = false := by
          rw [beq_eq_false_iff_ne]
          exact fun hh => h1 hh.symm
        simp [hb1, hb2, mergeOpt_none_right]

theorem find2_fold (annotated : List String) (sjs : List JRec) :
    ∀ ac : AC,
      (∀ j ∈ sjs, ∀ p ∈ dictify_sample_counts_string j.samptimes, 0 ≤ p.2) →
      (∀ pk2 s2 v, find2 ac pk2 s2 = some v → 0 ≤ v) →
      ∀ pk s, find2 (sjs.foldl (procJunction annotated) ac) pk s =
        mergeOpt (find2 ac pk s)
          (listMax (endpointContribs sjs annotated pk s)) := by
  induction sjs with
  | nil =>
    intro ac hj hac pk s
    simp [endpointContribs, listMax, mergeOpt_none_right]
  | cons j rest ih =>
    intro ac hj hac pk s
    have hjn : ∀ p ∈ dictify_sample_counts_string j.samptimes, 0 ≤ p.2 :=
      hj j (by simp)
    have hacn : ∀ pk2 s2 v,
        find2 (procJunction annotated ac j) pk2 s2 = some v → 0 ≤ v := by
      intro pk2 s2 v hv
      rw [find2_procJunction annotated ac j pk2 s2 hac hjn] at hv
      cases hfa : find2 ac pk2 s2 with
      | none =>
        rw [hfa] at hv
        simp only [mergeOpt] at hv
        exact contribOf_nonneg annotated pk2 s2 j hjn v hv
      | some e =>
        have he : 0 ≤ e := hac pk2 s2 e hfa
        rw [hfa] at hv
        cases hco : contribOf annotated pk2 s2 j with
        | none =>
          rw [hco] at hv
          simp only [mergeOpt] at hv
          injection hv with hv2
          omega
        | some c =>
          have hc : 0 ≤ c := contribOf_nonneg annotated pk2 s2 j hjn c hco
          rw [hco] at hv
          simp only [mergeOpt] at hv
          injection hv with hv2
          rw [← hv2]
          exact le_max_of_le_left he
    simp only [List.foldl_cons]
    rw [ih (procJunction annotated ac j)
      (fun j2 hj2 => hj j2 (by simp [hj2])) hacn pk s]
    rw [find2_procJunction annotated ac j pk s hac hjn]
    cases hco : contribOf annotated pk s j with
    | none =>
      simp only [endpointContribs, List.filterMap_cons, hco,
        mergeOpt_none_right]
    | some c =>
      simp only [endpointContribs, List.filterMap_cons, hco]
      rw [show listMax (c :: List.filterMap (contribOf annotated pk s) rest) =
        mergeOpt (some c)
          (listMax (List.filterMap (contribOf annotated pk s) rest)) from rfl]
      rw [mergeOpt_assoc]

/-- C5: for every endpoint key and sample, the index built by
get_annotated_counts holds exactly the maximum count over all discovered
junctions whose start or stop endpoint renders to that key, whose full
junction key belongs to the annotated set, and whose counts mention the
sample; junctions that are not annotation-confirmed contribute nothing, and
a key-sample pair with no contribution is absent.  Counts are assumed
non-negative, as occurrence counts of the data model are. -/
theorem c5_endpoint_support_index (splice_junctions : List JRec)
    (annotated_junctions : List String) (pk s : String)
    (hnn : ∀ j ∈ splice_junctions,
      ∀ p ∈ dictify_sample_counts_string j.samptimes, 0 ≤ p.2) :
    find2 (get_annotated_counts splice_junctions annotated_junctions) pk s =
      listMax (endpointContribs splice_junctions annotated_junctions pk s) := by
  have h := find2_fold annotated_junctions splice_junctions [] hnn
    (by intro pk2 s2 v hv; simp [find2, pyGet] at hv) pk s
  simpa [get_annotated_counts, find2, pyGet, mergeOpt] using h

/-- Witness for c5_endpoint_support_index: two annotated junctions share
the start endpoint 2:100 with counts twenty and thirty for one sample, and
a third junction at the same endpoint is not annotation-confirmed; the
index holds the maximum thirty of the two confirmed ones. -/
theorem c5_endpoint_support_index_witness :
    find2 (get_annotated_counts
        [⟨"g", "t", "2", 100, 250, "30", "2", [("Beryl", 20), ("Besse", 10)]⟩,
          ⟨"g", "t", "2", 100, 360, "34", "2", [("Beryl", 30), ("Besse", 4)]⟩,
          ⟨"g", "t", "2", 100, 999, "99", "1", [("Beryl", 99)]⟩]
        ["2:100-250", "2:100-360"]) "2:100" "Beryl" =
      listMax (endpointContribs
        [⟨"g", "t", "2", 100, 250, "30", "2", [("Beryl", 20), ("Besse", 10)]⟩,
          ⟨"g", "t", "2", 100, 360, "34", "2", [("Beryl", 30), ("Besse", 4)]⟩,
          ⟨"g", "t", "2", 100, 999, "99", "1", [("Beryl", 99)]⟩]
        ["2:100-250", "2:100-360"] "2:100" "Beryl") ∧
      listMax (endpointContribs
        [⟨"g", "t", "2", 100, 250, "30", "2", [("Beryl", 20), ("Besse", 10)]⟩,
          ⟨"g", "t", "2", 100, 360, "34", "2", [("Beryl", 30), ("Besse", 4)]⟩,
          ⟨"g", "t", "2", 100, 999, "99", "1", [("Beryl", 99)]⟩]
        ["2:100-250", "2:100-360"] "2:100" "Beryl") = some 30 :=
  ⟨c5_endpoint_support_index _ _ "2:100" "Beryl" (by decide), by decide⟩

/-- Truthiness of a dictionary lookup result: a missing key and an empty
dictionary are both falsy in Python. -/
def pyTruthy (o : Option (List (String × Int))) : Bool :=
  match o with
  | some (_ :: _) => true
  | _ => false

/-- Lookup with default zero on a possibly missing dictionary, the Python
d.get(sample, 0) applied under the truthiness guards of normalize_counts. -/
def pyGetD (o : Option (List (String × Int))) (s : String) : Int :=
  match o with
  | none => 0
  | some d => (pyGet d s).getD 0

/-- A normalized per-sample value: a rounded ratio, or the raw count with
the star marker emitted where Python catches the ZeroDivisionError. -/
inductive NormVal where
  | num (q : ℚ)
  | starred (c : Int)
  deriving DecidableEq, Repr

/-- Round half to even, as the Python round builtin on an exact value. -/
def roundHalfEven (q : ℚ) : Int :=
  let f := q.floor
  if q - f < 1 / 2 then f
  else if 1 / 2 < q - f then f + 1
  else if f % 2 = 0 then f else f + 1

/-- Python round(x, 3): round half to even at three decimal places, with
the quotient taken exactly. -/
def pyRound3 (q : ℚ) : ℚ := (roundHalfEven (q * 1000) : ℚ) / 1000

/-- Sorting of sample and count pairs by the decimal rendering of the
count, as sort_string_numerically orders the colon-joined pair strings by
their count part. -/
def sort_string_numerically (l : List (String × Int)) : List (String × Int) :=
  pySorted (fun a b => pyStrLe (toString a.2) (toString b.2)) l

/-- One output line of normalize_counts. -/
structure NRow where
  gene : String
  gene_type : String
  full_junction_string : String
  ntimes : String
  nsamp : String
  samptimes_sorted : List (String × Int)
  tag : String
  normalized : List (String × NormVal)
  deriving DecidableEq, Repr

/-- Embedding of one iteration of normalize_counts.  A sample's value is
the ratio of its count to its denominator rounded to three places, or the
count with the star marker where the denominator is zero and Python catches
the ZeroDivisionError.  The branch conditions use Python truthiness of the
endpoint lookups; the final branch of the source tests annotated_stop twice
(a typo kept here), so a junction whose start lookup yields an empty
dictionary while the stop key is present but empty would produce no line.
The source concatenates the normalized column without separators, which
makes the subsequent numeric sort of that string the identity; the column
is modelled as the list of its entries in construction order. -/
def normRow (annotated_counts : AC) (j : JRec) : Option NRow :=
  let samptimes_sorted := sort_string_numerically j.samptimes
  let annotated_start := pyGet annotated_counts (posKey j.chrom j.start)
  let annotated_stop := pyGet annotated_counts (posKey j.chrom j.stop)
  let full_junction_string := junctionKey j.chrom j.start j.stop
  if pyTruthy annotated_start || pyTruthy annotated_stop then
    if pyTruthy annotated_start && pyTruthy annotated_stop then
      some ⟨j.gene, j.gene_type, full_junction_string, j.ntimes, j.nsamp,
        samptimes_sorted, "Both annotated",
        (dictify_sample_counts_string j.samptimes).map (fun p =>
          let denominator := max (pyGetD annotated_start p.1)
            (pyGetD annotated_stop p.1)
          (p.1, if denominator = 0 then NormVal.starred p.2
            else NormVal.num (pyRound3 ((p.2 : ℚ) / (denominator : ℚ)))))⟩
    else
      some ⟨j.gene, j.gene_type, full_junction_string, j.ntimes, j.nsamp,
        samptimes_sorted, "One annotated",
        (dictify_sample_counts_string j.samptimes).map (fun p =>
          let denominator := if pyTruthy annotated_start then
              pyGetD annotated_start p.1
            else pyGetD annotated_stop p.1
          (p.1, if denominator = 0 then NormVal.starred p.2
            else NormVal.num (pyRound3 ((p.2 : ℚ) / (denominator : ℚ)))))⟩
  else if annotated_stop.isNone && annotated_stop.isNone then
    some ⟨j.gene, j.gene_type, full_junction_string, j.ntimes, j.nsamp,
      samptimes_sorted, "Neither annotated", []⟩
  else none

/-- Embedding of normalize_counts: one output line per junction for which a
branch applies. -/
def normalize_counts (splice_junctions : List JRec) (annotated_counts : AC) :
    List NRow :=
  splice_junctions.filterMap (normRow annotated_counts)

/-- Per-sample denominator as the claim states it: the maximum of the two
annotated endpoint supports when both endpoints are present, the single
present endpoint's support otherwise. -/
def denomFor (annotated_counts : AC) (j : JRec) (s : String) : Int :=
  let annotated_start := pyGet annotated_counts (posKey j.chrom j.start)
  let annotated_stop := pyGet annotated_counts (posKey j.chrom j.stop)
  if pyTruthy annotated_start && pyTruthy annotated_stop then
    max (pyGetD annotated_start s) (pyGetD annotated_stop s)
  else if pyTruthy annotated_start then pyGetD annotated_start s
  else pyGetD annotated_stop s

/-- C4: a junction with at least one annotated endpoint always produces an
output line (a zero denominator is never an error), and in it each sample's
emitted value is the count divided by the claim's denominator and rounded
to three places when that denominator is nonzero, and the raw count with
the star marker when the denominator is zero. -/
theorem c4_normalized_values (annotated_counts : AC) (splice_junctions : List JRec)
    (j : JRec) (hj : j ∈ splice_junctions)
    (h : pyTruthy (pyGet annotated_counts (posKey j.chrom j.start)) = true ∨
      pyTruthy (pyGet annotated_counts (posKey j.chrom j.stop)) = true) :
    ∃ r, normRow annotated_counts j = some r ∧
      r ∈ normalize_counts splice_junctions annotated_counts ∧
      r.normalized = (dictify_sample_counts_string j.samptimes).map (fun p =>
        (p.1, if denomFor annotated_counts j p.1 = 0 then NormVal.starred p.2
          else NormVal.num
            (pyRound3 ((p.2 : ℚ) / (denomFor annotated_counts j p.1 : ℚ))))) := by
  have hor : (pyTruthy (pyGet annotated_counts (posKey j.chrom j.start)) ||
      pyTruthy (pyGet annotated_counts (posKey j.chrom j.stop))) = true := by
    rcases h with h | h <;> simp [h]
  by_cases hboth : (pyTruthy (pyGet annotated_counts (posKey j.chrom j.start)) &&
      pyTruthy (pyGet annotated_counts (posKey j.chrom j.stop))) = true
  · have hrow : normRow annotated_counts j =
        some ⟨j.gene, j.gene_type, junctionKey j.chrom j.start j.stop,
          j.ntimes, j.nsamp, sort_string_numerically j.samptimes,
          "Both annotated",
          (dictify_sample_counts_string j.samptimes).map (fun p =>
            let denominator := max
              (pyGetD (pyGet annotated_counts (posKey j.chrom j.start)) p.1)
              (pyGetD (pyGet annotated_counts (posKey j.chrom j.stop)) p.1)
            (p.1, if denominator = 0 then NormVal.starred p.2
              else NormVal.num
                (pyRound3 ((p.2 : ℚ) / (denominator : ℚ)))))⟩ := by
      simp only [normRow, hor, hboth, if_true]
    refine ⟨_, hrow, List.mem_filterMap.mpr ⟨j, hj, hrow⟩, ?_⟩
    apply List.map_congr_left
    intro p hp
    simp only [denomFor, hboth, if_true]
  · have hrow : normRow annotated_counts j =
        some ⟨j.gene, j.gene_type, junctionKey j.chrom j.start j.stop,
          j.ntimes, j.nsamp, sort_string_numerically j.samptimes,
          "One annotated",
          (dictify_sample_counts_string j.samptimes).map (fun p =>
            let denominator := if pyTruthy
                (pyGet annotated_counts (posKey j.chrom j.start)) then
                pyGetD (pyGet annotated_counts (posKey j.chrom j.start)) p.1
              else
                pyGetD (pyGet annotated_counts (posKey j.chrom j.stop)) p.1
            (p.1, if denominator = 0 then NormVal.starred p.2
              else NormVal.num
                (pyRound3 ((p.2 : ℚ) / (denominator : ℚ)))))⟩ := by
      simp only [normRow, hor, hboth, if_true, Bool.false_eq_true, if_false]
    refine ⟨_, hrow, List.mem_filterMap.mpr ⟨j, hj, hrow⟩, ?_⟩
    apply List.map_congr_left
    intro p hp
    simp only [denomFor, hboth, Bool.false_eq_true, if_false]

/-- Witness for c4_normalized_values: one junction with both endpoints
annotated for sample A only; sample A gets the rounded ratio, sample B the
starred raw count. -/
theorem c4_normalized_values_witness :
    (∃ r, normRow [("2:100", [("A", 10)]), ("2:250", [("A", 8)])]
        ⟨"g", "t", "2", 100, 250, "8", "2", [("A", 5), ("B", 3)]⟩ = some r ∧
      r ∈ normalize_counts
        [⟨"g", "t", "2", 100, 250, "8", "2", [("A", 5), ("B", 3)]⟩]
        [("2:100", [("A", 10)]), ("2:250", [("A", 8)])] ∧
      r.normalized = (dictify_sample_counts_string
          [("A", (5 : Int)), ("B", 3)]).map (fun p =>
        (p.1, if denomFor [("2:100", [("A", 10)]), ("2:250", [("A", 8)])]
              ⟨"g", "t", "2", 100, 250, "8", "2", [("A", 5), ("B", 3)]⟩ p.1 = 0
          then NormVal.starred p.2
          else NormVal.num (pyRound3 ((p.2 : ℚ) /
            (denomFor [("2:100", [("A", 10)]), ("2:250", [("A", 8)])]
              ⟨"g", "t", "2", 100, 250, "8", "2", [("A", 5), ("B", 3)]⟩
                p.1 : ℚ)))))) ∧
      denomFor [("2:100", [("A", 10)]), ("2:250", [("A", 8)])]
        ⟨"g", "t", "2", 100, 250, "8", "2", [("A", 5), ("B", 3)]⟩ "A" = 10 ∧
      denomFor [("2:100", [("A", 10)]), ("2:250", [("A", 8)])]
        ⟨"g", "t", "2", 100, 250, "8", "2", [("A", 5), ("B", 3)]⟩ "B" = 0 :=
  ⟨c4_normalized_values [("2:100", [("A", 10)]), ("2:250", [("A", 8)])]
      [⟨"g", "t", "2", 100, 250, "8", "2", [("A", 5), ("B", 3)]⟩]
      ⟨"g", "t", "2", 100, 250, "8", "2", [("A", 5), ("B", 3)]⟩
      (by decide) (Or.inl (by decide)),
    by decide, by decide⟩

/-! Embedding of combineJunctionAcrossSamples.py: the cross-sample merge of
reformatted per-sample junction tables. -/

/-- One record of a reformatted per-sample splice junction table, as consumed
by the junction loop of combineJunctionAcrossSamples: the fields the loop
reads, with the samptimes JSON cell modelled as its list of sample and count
pairs. -/
structure SRow where
  gene : String
  gene_type : String
  chrom : String
  start : String
  stop : String
  samptimes : List (String × Int)
  deriving DecidableEq, Repr

/-- Running entry of all_juncs_dict for one junction string: the metadata of
the first record that introduced it, the accumulating totals and the
per-sample counts. -/
structure JState where
  gene : String
  gene_type : String
  chrom : String
  start : String
  stop : String
  ntimes : Int
  nsamp : Int
  samptimes : List (String × Int)
  deriving DecidableEq, Repr

/-- Junction string of a record, the Python format chrom:start-stop over the
string-valued fields of the file. -/
def SRow.key (r : SRow) : String := r.chrom ++ ":" ++ r.start ++ "-" ++ r.stop

/-- Embedding of the defaultdict(int) update samptimes[samp_id] += ntimes:
add into the entry in place, or append a fresh entry counting from zero. -/
def addCount : List (String × Int) → String → Int → List (String × Int)
  | [], s, c => [(s, c)]
  | (k, v) :: rest, s, c =>
    if k = s then (k, v + c) :: rest else (k, v) :: addCount rest s c

/-- Embedding of one iteration of the junction loop of
combineJunctionAcrossSamples: unpack the single sample and count of the
record (the tuple unpacking raises an uncaught ValueError when the samptimes
cell does not hold exactly one pair), then merge into the existing ordered
dictionary entry, or append a fresh entry with nsamp 1. -/
def combineRow (d : List (String × JState)) (r : SRow) :
    Except PyErr (List (String × JState)) :=
  match r.samptimes with
  | [(samp_id, ntimes)] =>
    match pyGet d (SRow.key r) with
    | some st =>
      .ok (pySet d (SRow.key r)
        ⟨st.gene, st.gene_type, st.chrom, st.start, st.stop,
          st.ntimes + ntimes, st.nsamp + 1,
          addCount st.samptimes samp_id ntimes⟩)
    | none =>
      .ok (d ++ [(SRow.key r,
        ⟨r.gene, r.gene_type, r.chrom, r.start, r.stop, ntimes, 1,
          [(samp_id, ntimes)]⟩)])
  | _ => .error .valueErr

/-- Fold of the junction loop over the concatenated records of the input
tables, from the empty ordered dictionary. -/
def combineAll (rows : List SRow) : Except PyErr (List (String × JState)) :=
  rows.foldlM combineRow []

/-- Final pass of combineJunctionAcrossSamples over one entry: recompute
nsamp as np.count_nonzero over the samptimes values. -/
def finalizeJ (st : JState) : JState :=
  ⟨st.gene, st.gene_type, st.chrom, st.start, st.stop, st.ntimes,
    ((st.samptimes.filter (fun p => p.2 != 0)).length : Int), st.samptimes⟩

/-- Combined table written by combineJunctionAcrossSamples for a list of
input records: the merged entries in first-encounter order, each with nsamp
recomputed by the final pass. -/
def combineFinal (rows : List SRow) : Except PyErr (List (String × JState)) :=
  (combineAll rows).map (fun d => d.map (fun ke => (ke.1, finalizeJ ke.2)))

/-- Records of a combined table read back as a reformatted table, the
row-wise content an aggregated output file feeds into a later merge. -/
def toRows (d : List (String × JState)) : List SRow :=
  d.map (fun ke =>
    ⟨ke.2.gene, ke.2.gene_type, ke.2.chrom, ke.2.start, ke.2.stop,
      ke.2.samptimes⟩)

/-- Sum over the records of a table of the count each record carries for a
given junction string and sample. -/
def rowsSum (rows : List SRow) (k s : String) : Int :=
  (rows.map (fun r =>
    if SRow.key r = k then (pyGet r.samptimes s).getD 0 else 0)).sum

/-- Test whether some record of a table carries the given junction string
together with the given sample. -/
def hasPair (rows : List SRow) (k s : String) : Bool :=
  rows.any (fun r => SRow.key r == k && (pyGet r.samptimes s).isSome)

/-- Count of a junction and sample across the records of a table: the summed
count when the pair occurs in some record, absent otherwise. -/
def rowsSumOpt (rows : List SRow) (k s : String) : Option Int :=
  if hasPair rows k s then some (rowsSum rows k s) else none

/-- Test whether some record of a table carries the given junction string. -/
def hasKey (rows : List SRow) (k : String) : Bool :=
  rows.any (fun r => SRow.key r == k)

/-- Property of a record whose samptimes cell holds exactly one sample, as
every record of a reformatted single-sample table does. -/
def singleSample (r : SRow) : Prop := ∃ s c, r.samptimes = [(s, c)]

theorem pyGet_append {α β : Type} [DecidableEq α] (l1 l2 : List (α × β))
    (k : α) :
    pyGet (l1 ++ l2) k =
      match pyGet l1 k with
      | some v => some v
      | none => pyGet l2 k := by
  induction l1 with
  | nil => simp [pyGet]
  | cons q rest ih =>
    obtain ⟨k0, v0⟩ := q
    by_cases hk : k0 = k
    · simp [pyGet, hk]
    · simp [pyGet, hk, ih]

theorem pyGet_isSome_iff {α β : Type} [DecidableEq α] (l : List (α × β))
    (k : α) : (pyGet l k).isSome = true ↔ k ∈ l.map Prod.fst := by
  induction l with
  | nil => simp [pyGet]
  | cons q rest ih =>
    obtain ⟨k0, v0⟩ := q
    by_cases hk : k0 = k
    · simp [pyGet, hk]
    · simp [pyGet, hk, ih, Ne.symm hk]

theorem mem_iff_pyGet {α β : Type} [DecidableEq α] (l : List (α × β))
    (hn : (l.map Prod.fst).Nodup) (k : α) (v : β) :
    (k, v) ∈ l ↔ pyGet l k = some v := by
  induction l with
  | nil => simp [pyGet]
  | cons q rest ih =>
    obtain ⟨k0, v0⟩ := q
    simp only [List.map_cons, List.nodup_cons] at hn
    by_cases hk : k0 = k
    · subst hk
      constructor
      · intro hmem
        rcases List.mem_cons.mp hmem with h | h
        · injection h with h1 h2
          simp [pyGet, h2]
        · exact absurd (List.mem_map.mpr ⟨(k0, v), h, rfl⟩) hn.1
      · intro h
        have h2 : v0 = v := by simpa [pyGet] using h
        rw [← h2]
        exact List.mem_cons_self _ _
    · simp only [pyGet, if_neg hk, List.mem_cons]
      rw [ih hn.2]
      constructor
      · rintro (h | h)
        · injection h with h1 h2
          exact absurd h1.symm hk
        · exact h
      · exact Or.inr

theorem pyGet_map_val {α β γ : Type} [DecidableEq α] (f : β → γ)
    (l : List (α × β)) (k : α) :
    pyGet (l.map (fun ke => (ke.1, f ke.2))) k = (pyGet l k).map f := by
  induction l with
  | nil => simp [pyGet]
  | cons q rest ih =>
    obtain ⟨k0, v0⟩ := q
    by_cases hk : k0 = k
    · simp [pyGet, hk]
    · simp [pyGet, hk, ih]

theorem pyGet_addCount (l : List (String × Int)) (s0 : String) (c : Int)
    (s : String) :
    pyGet (addCount l s0 c) s =
      if s0 = s then some ((pyGet l s0).getD 0 + c) else pyGet l s := by
  induction l with
  | nil =>
    by_cases h : s0 = s
    · simp [addCount, pyGet, h]
    · simp [addCount, pyGet, h]
  | cons q rest ih =>
    obtain ⟨k, v⟩ := q
    by_cases hk : k = s0
    · subst hk
      by_cases hs : k = s
      · subst hs
        simp [addCount, pyGet]
      · simp [addCount, pyGet, hs]
    · by_cases hs : s0 = s
      · subst hs
        simp [addCount, pyGet, hk, ih]
      · by_cases hks : k = s
        · have hsk : ¬s = s0 := fun h => hs h.symm
          subst hks
          simp [addCount, pyGet, hs, hsk]
        · simp [addCount, pyGet, hk, hks, hs, ih]

theorem mem_addCount (l : List (String × Int)) (s0 : String) (c : Int) :
    ∀ p ∈ addCount l s0 c, p.1 ∈ l.map Prod.fst ∨ p.1 = s0 := by
  induction l with
  | nil =>
    intro p hp
    simp [addCount] at hp
    simp [hp]
  | cons q rest ih =>
    obtain ⟨k, v⟩ := q
    intro p hp
    simp only [addCount] at hp
    by_cases hk : k = s0
    · rw [if_pos hk] at hp
      rcases List.mem_cons.mp hp with h | h
      · left; rw [h]; simp
      · left
        simp only [List.map_cons, List.mem_cons]
        right
        exact List.mem_map.mpr ⟨p, h, rfl⟩
    · rw [if_neg hk] at hp
      rcases List.mem_cons.mp hp with h | h
      · left; rw [h]; simp
      · rcases ih p h with h2 | h2
        · left
          simp only [List.map_cons, List.mem_cons]
          right
          exact h2
        · right
          exact h2

theorem keys_addCount_nodup (l : List (String × Int)) (s0 : String)
    (c : Int) (h : (l.map Prod.fst).Nodup) :
    ((addCount l s0 c).map Prod.fst).Nodup := by
  induction l with
  | nil => simp [addCount]
  | cons q rest ih =>
    obtain ⟨k, v⟩ := q
    simp only [List.map_cons, List.nodup_cons] at h
    simp only [addCount]
    by_cases hk : k = s0
    · rw [if_pos hk]
      simp only [List.map_cons, List.nodup_cons]
      exact ⟨h.1, h.2⟩
    · rw [if_neg hk]
      simp only [List.map_cons, List.nodup_cons]
      refine ⟨?_, ih h.2⟩
      intro hmem
      obtain ⟨p, hp, hpk⟩ := List.mem_map.mp hmem
      rcases mem_addCount rest s0 c p hp with h2 | h2
      · rw [hpk] at h2
        exact h.1 h2
      · rw [hpk] at h2
        exact hk h2

theorem sum_addCount (l : List (String × Int)) (s0 : String) (c : Int) :
    ((addCount l s0 c).map Prod.snd).sum = (l.map Prod.snd).sum + c := by
  induction l with
  | nil => simp [addCount]
  | cons q rest ih =>
    obtain ⟨k, v⟩ := q
    by_cases hk : k = s0
    · simp [addCount, hk]
      omega
    · simp [addCount, hk, ih]
      omega

theorem rowsSum_append (l1 l2 : List SRow) (k s : String) :
    rowsSum (l1 ++ l2) k s = rowsSum l1 k s + rowsSum l2 k s := by
  simp [rowsSum]

theorem hasPair_append (l1 l2 : List SRow) (k s : String) :
    hasPair (l1 ++ l2) k s = (hasPair l1 k s || hasPair l2 k s) := by
  simp [hasPair]

theorem hasKey_append (l1 l2 : List SRow) (k : String) :
    hasKey (l1 ++ l2) k = (hasKey l1 k || hasKey l2 k) := by
  simp [hasKey]

theorem hasPair_le_hasKey (rows : List SRow) (k s : String)
    (h : hasPair rows k s = true) : hasKey rows k = true := by
  simp only [hasPair, List.any_eq_true, Bool.and_eq_true] at h
  obtain ⟨r, hr, h1, _⟩ := h
  exact List.any_eq_true.mpr ⟨r, hr, h1⟩

theorem hasPair_false_of_hasKey_false (rows : List SRow) (k s : String)
    (h : hasKey rows k = false) : hasPair rows k s = false := by
  cases hp : hasPair rows k s
  · rfl
  · rw [hasPair_le_hasKey rows k s hp] at h
    exact absurd h (by simp)

theorem rowsSum_eq_zero (rows : List SRow) (k s : String)
    (h : hasPair rows k s = false) : rowsSum rows k s = 0 := by
  induction rows with
  | nil => simp [rowsSum]
  | cons r rest ih =>
    simp only [hasPair, List.any_cons, Bool.or_eq_false_iff] at h
    obtain ⟨h1, h2⟩ := h
    have hrest : rowsSum rest k s = 0 := ih (by simpa [hasPair] using h2)
    rw [rowsSum, List.map_cons, List.sum_cons]
    have hhead :
        (if SRow.key r = k then (pyGet r.samptimes s).getD 0 else 0) = 0 := by
      by_cases hk : SRow.key r = k
      · have hb : (SRow.key r == k) = true := by simp [hk]
        rw [hb, Bool.true_and] at h1
        have hg : pyGet r.samptimes s = none :=
          Option.not_isSome_iff_eq_none.mp (by simp [h1])
        simp [hk, hg]
      · simp [hk]
    rw [hhead, zero_add]
    exact hrest

/-- Invariant of the merge loop: after the records of processed have been
folded into the dictionary d, the keys of d are exactly the junction strings
of processed without duplicates, and each entry carries duplicate-free
per-sample counts equal to the per-pair count sums over processed, a running
total equal to the sum of its own per-sample counts, and a key string
rebuilt from its own coordinate fields. -/
def CombInv (processed : List SRow) (d : List (String × JState)) : Prop :=
  ((d.map Prod.fst).Nodup) ∧
  (∀ k, (pyGet d k).isSome = hasKey processed k) ∧
  (∀ k st, pyGet d k = some st →
    ((st.samptimes.map Prod.fst).Nodup ∧
     (∀ s, pyGet st.samptimes s = rowsSumOpt processed k s) ∧
     st.ntimes = (st.samptimes.map Prod.snd).sum ∧
     k = st.chrom ++ ":" ++ st.start ++ "-" ++ st.stop))

theorem combineRow_inv (processed : List SRow) (d : List (String × JState))
    (r : SRow) (hinv : CombInv processed d) (hr : singleSample r) :
    ∃ d2, combineRow d r = .ok d2 ∧ CombInv (processed ++ [r]) d2 := by
  obtain ⟨s0, c0, hsr⟩ := hr
  obtain ⟨hnod, hsome, hent⟩ := hinv
  cases hd : pyGet d (SRow.key r) with
  | some st =>
    obtain ⟨hstn, hstl, hstt, hstk⟩ := hent (SRow.key r) st hd
    refine ⟨pySet d (SRow.key r)
        ⟨st.gene, st.gene_type, st.chrom, st.start, st.stop,
          st.ntimes + c0, st.nsamp + 1, addCount st.samptimes s0 c0⟩,
      ?_, ?_, ?_, ?_⟩
    · simp [combineRow, hsr, hd]
    · exact keys_pySet_nodup d _ _ hnod
    · intro k
      by_cases hk : k = SRow.key r
      · subst hk
        rw [pyGet_pySet_same]
        simp [hasKey_append, hasKey]
      · rw [pyGet_pySet_other d (SRow.key r) _ k hk, hsome k]
        have hknr : ¬SRow.key r = k := fun hh => hk hh.symm
        simp [hasKey_append, hasKey, hknr]
    · intro k st3 hg
      by_cases hk : k = SRow.key r
      · subst hk
        rw [pyGet_pySet_same] at hg
        injection hg with hg2
        subst hg2
        refine ⟨?_, ?_, ?_, ?_⟩
        · show ((addCount st.samptimes s0 c0).map Prod.fst).Nodup
          exact keys_addCount_nodup _ _ _ hstn
        · intro s
          show pyGet (addCount st.samptimes s0 c0) s =
            rowsSumOpt (processed ++ [r]) (SRow.key r) s
          rw [pyGet_addCount]
          by_cases hs : s0 = s
          · subst hs
            rw [if_pos rfl]
            have hpr : hasPair [r] (SRow.key r) s0 = true := by
              simp [hasPair, hsr, pyGet]
            have hrs : rowsSum [r] (SRow.key r) s0 = c0 := by
              simp [rowsSum, hsr, pyGet]
            rw [hstl s0]
            cases hp : hasPair processed (SRow.key r) s0
            · have h0 : rowsSum processed (SRow.key r) s0 = 0 :=
                rowsSum_eq_zero _ _ _ hp
              simp [rowsSumOpt, hp, hasPair_append, rowsSum_append, hpr,
                hrs, h0]
            · simp [rowsSumOpt, hp, hasPair_append, rowsSum_append, hpr, hrs]
          · rw [if_neg hs]
            have hpr : hasPair [r] (SRow.key r) s = false := by
              simp [hasPair, hsr, pyGet, hs]
            have hrs : rowsSum [r] (SRow.key r) s = 0 := by
              simp [rowsSum, hsr, pyGet, hs]
            rw [hstl s]
            simp [rowsSumOpt, hasPair_append, rowsSum_append, hpr, hrs]
        · show st.ntimes + c0 = ((addCount st.samptimes s0 c0).map Prod.snd).sum
          rw [sum_addCount, ← hstt]
        · show SRow.key r = st.chrom ++ ":" ++ st.start ++ "-" ++ st.stop
          exact hstk
      · rw [pyGet_pySet_other d (SRow.key r) _ k hk] at hg
        obtain ⟨h1, h2, h3, h4⟩ := hent k st3 hg
        have hknr : ¬SRow.key r = k := fun hh => hk hh.symm
        refine ⟨h1, ?_, h3, h4⟩
        intro s
        rw [h2 s]
        have hpr : hasPair [r] k s = false := by simp [hasPair, hknr]
        have hrs : rowsSum [r] k s = 0 := by simp [rowsSum, hknr]
        simp [rowsSumOpt, hasPair_append, rowsSum_append, hpr, hrs]
  | none =>
    refine ⟨d ++ [(SRow.key r,
        ⟨r.gene, r.gene_type, r.chrom, r.start, r.stop, c0, 1, [(s0, c0)]⟩)],
      ?_, ?_, ?_, ?_⟩
    · simp [combineRow, hsr, hd]
    · have hKnm : SRow.key r ∉ d.map Prod.fst := by
        intro hmem
        have h2 := (pyGet_isSome_iff d (SRow.key r)).mpr hmem
        rw [hd] at h2
        simp at h2
      simp only [List.map_append, List.map_cons, List.map_nil]
      rw [List.nodup_append]
      refine ⟨hnod, List.nodup_singleton _, ?_⟩
      intro a ha hb
      simp only [List.mem_singleton] at hb
      rw [hb] at ha
      exact hKnm ha
    · intro k
      rw [pyGet_append]
      by_cases hk : k = SRow.key r
      · subst hk
        rw [hd]
        have hkp : hasKey processed (SRow.key r) = false := by
          have h5 := hsome (SRow.key r)
          rw [hd] at h5
          simpa using h5.symm
        simp [pyGet, hasKey_append, hasKey, hkp]
      · have hknr : ¬SRow.key r = k := fun hh => hk hh.symm
        cases hg : pyGet d k
        · have h5 := hsome k
          rw [hg] at h5
          simp only [Option.isSome_none] at h5
          rw [hasKey_append, ← h5]
          simp [pyGet, hknr, hasKey]
        · have h5 := hsome k
          rw [hg] at h5
          simp only [Option.isSome_some] at h5
          rw [hasKey_append, ← h5]
          simp
    · intro k st3 hg
      rw [pyGet_append] at hg
      cases hgd : pyGet d k with
      | some st2 =>
        simp only [hgd] at hg
        injection hg with hg2
        subst hg2
        obtain ⟨h1, h2, h3, h4⟩ := hent k st2 hgd
        have hknr : ¬SRow.key r = k := by
          intro hh
          rw [hh] at hd
          exact Option.noConfusion (hd.symm.trans hgd)
        refine ⟨h1, ?_, h3, h4⟩
        intro s
        rw [h2 s]
        have hpr : hasPair [r] k s = false := by simp [hasPair, hknr]
        have hrs : rowsSum [r] k s = 0 := by simp [rowsSum, hknr]
        simp [rowsSumOpt, hasPair_append, rowsSum_append, hpr, hrs]
      | none =>
        simp only [hgd] at hg
        by_cases hk : SRow.key r = k
        · subst hk
          have hst3 : st3 =
              ⟨r.gene, r.gene_type, r.chrom, r.start, r.stop, c0, 1,
                [(s0, c0)]⟩ := by
            simpa [pyGet] using hg.symm
          subst hst3
          have hkp : hasKey processed (SRow.key r) = false := by
            have h5 := hsome (SRow.key r)
            rw [hd] at h5
            simpa using h5.symm
          have hpp : ∀ s, hasPair processed (SRow.key r) s = false :=
            fun s => hasPair_false_of_hasKey_false _ _ s hkp
          refine ⟨by simp, ?_, by simp, rfl⟩
          intro s
          have h0 : rowsSum processed (SRow.key r) s = 0 :=
            rowsSum_eq_zero _ _ _ (hpp s)
          by_cases hs : s0 = s
          · subst hs
            have hpr : hasPair [r] (SRow.key r) s0 = true := by
              simp [hasPair, hsr, pyGet]
            have hcond : hasPair (processed ++ [r]) (SRow.key r) s0 = true := by
              rw [hasPair_append, hpp s0, hpr]
              rfl
            have hrs : rowsSum (processed ++ [r]) (SRow.key r) s0 = c0 := by
              rw [rowsSum_append, h0, zero_add, rowsSum]
              simp [hsr, pyGet]
            rw [rowsSumOpt, hcond, hrs]
            simp [pyGet]
          · have hpr : hasPair [r] (SRow.key r) s = false := by
              simp [hasPair, hsr, pyGet, hs]
            have hcond : hasPair (processed ++ [r]) (SRow.key r) s = false := by
              rw [hasPair_append, hpp s, hpr]
              rfl
            rw [rowsSumOpt, hcond]
            simp [pyGet, hs]
        · exact absurd hg (by simp [pyGet, hk])

theorem combineAll_inv_aux (rows : List SRow) :
    ∀ (processed : List SRow) (d : List (String × JState)),
      CombInv processed d → (∀ r ∈ rows, singleSample r) →
      ∃ dS, rows.foldlM combineRow d = .ok dS ∧
        CombInv (processed ++ rows) dS := by
  induction rows with
  | nil =>
    intro processed d hinv _
    exact ⟨d, rfl, by simpa using hinv⟩
  | cons r rest ih =>
    intro processed d hinv hall
    obtain ⟨d2, hstep, hinv2⟩ :=
      combineRow_inv processed d r hinv (hall r (by simp))
    obtain ⟨dS, hfold, hinvS⟩ :=
      ih (processed ++ [r]) d2 hinv2 (fun q hq => hall q (by simp [hq]))
    refine ⟨dS, ?_, ?_⟩
    · rw [List.foldlM_cons, hstep]
      simpa using hfold
    · have hra : (processed ++ [r]) ++ rest = processed ++ r :: rest := by
        simp
      rw [← hra]
      exact hinvS

theorem combineAll_inv (rows : List SRow)
    (hall : ∀ r ∈ rows, singleSample r) :
    ∃ dS, combineAll rows = .ok dS ∧ CombInv rows dS := by
  obtain ⟨dS, h1, h2⟩ := combineAll_inv_aux rows [] []
    ⟨by simp, by intro k; simp [pyGet, hasKey], by intro k st h; simp [pyGet] at h⟩
    hall
  exact ⟨dS, h1, by simpa using h2⟩

theorem isSome_omap {α β : Type} (f : α → β) (o : Option α) :
    (o.map f).isSome = o.isSome := by
  cases o <;> rfl

theorem assoc_perm_of_pyGet_eq {α β : Type} [DecidableEq α]
    (l1 l2 : List (α × β))
    (h1 : (l1.map Prod.fst).Nodup) (h2 : (l2.map Prod.fst).Nodup)
    (h : ∀ s, pyGet l1 s = pyGet l2 s) : l1.Perm l2 := by
  have hn1 : l1.Nodup := h1.of_map
  have hn2 : l2.Nodup := h2.of_map
  rw [List.perm_ext_iff_of_nodup hn1 hn2]
  intro p
  obtain ⟨s, v⟩ := p
  rw [mem_iff_pyGet l1 h1 s v, mem_iff_pyGet l2 h2 s v, h s]

theorem rowsSumOpt_comm (A B : List SRow) (k s : String) :
    rowsSumOpt (A ++ B) k s = rowsSumOpt (B ++ A) k s := by
  cases hA : hasPair A k s <;> cases hB : hasPair B k s <;>
    simp [rowsSumOpt, hasPair_append, rowsSum_append, hA, hB, Int.add_comm]

theorem combineAll_fresh (d : List (String × JState)) :
    ∀ acc : List (String × JState),
      (∀ ke ∈ d, pyGet acc ke.1 = none) →
      ((d.map Prod.fst).Nodup) →
      (∀ ke ∈ d, ke.1 = ke.2.chrom ++ ":" ++ ke.2.start ++ "-" ++ ke.2.stop) →
      (∀ ke ∈ d, ∃ s c, ke.2.samptimes = [(s, c)]) →
      (∀ ke ∈ d, ke.2.ntimes = (ke.2.samptimes.map Prod.snd).sum) →
      (toRows d).foldlM combineRow acc =
        .ok (acc ++ d.map (fun ke => (ke.1,
          (⟨ke.2.gene, ke.2.gene_type, ke.2.chrom, ke.2.start, ke.2.stop,
            ke.2.ntimes, 1, ke.2.samptimes⟩ : JState)))) := by
  induction d with
  | nil =>
    intro acc _ _ _ _ _
    simp only [toRows, List.map_nil, List.foldlM_nil, List.append_nil]
    rfl
  | cons ke rest ih =>
    intro acc hfresh hnod hcoh hsingle hnt
    obtain ⟨s, c, hsc⟩ := hsingle ke (by simp)
    obtain ⟨k0, st0⟩ := ke
    obtain ⟨g1, g2, g3, g4, g5, g6, g7, g8⟩ := st0
    have hsc2 : g8 = [(s, c)] := hsc
    subst hsc2
    have hnt1 : g6 = c := by
      have h5 := hnt _ (List.mem_cons_self _ _)
      simpa using h5
    have hkey0 : SRow.key ⟨g1, g2, g3, g4, g5, [(s, c)]⟩ = k0 :=
      (hcoh _ (List.mem_cons_self _ _)).symm
    have hstep : combineRow acc ⟨g1, g2, g3, g4, g5, [(s, c)]⟩ =
        .ok (acc ++ [(k0, (⟨g1, g2, g3, g4, g5, g6, 1, [(s, c)]⟩ :
          JState))]) := by
      have hfr : pyGet acc k0 = none := hfresh _ (List.mem_cons_self _ _)
      simp [combineRow, hkey0, hfr, hnt1]
    simp only [List.map_cons, List.nodup_cons] at hnod
    have hfresh2 : ∀ ke2 ∈ rest, pyGet (acc ++ [(k0,
        (⟨g1, g2, g3, g4, g5, g6, 1, [(s, c)]⟩ : JState))]) ke2.1 =
        none := by
      intro ke2 hke2
      rw [pyGet_append, hfresh ke2 (by simp [hke2])]
      have hne : ¬k0 = ke2.1 := by
        intro hh
        have hmem : ke2.1 ∈ rest.map Prod.fst :=
          List.mem_map.mpr ⟨ke2, hke2, rfl⟩
        rw [← hh] at hmem
        exact hnod.1 hmem
      simp [pyGet, hne]
    have hih := ih (acc ++ [(k0,
        (⟨g1, g2, g3, g4, g5, g6, 1, [(s, c)]⟩ : JState))]) hfresh2 hnod.2
      (fun ke2 h => hcoh ke2 (by simp [h]))
      (fun ke2 h => hsingle ke2 (by simp [h]))
      (fun ke2 h => hnt ke2 (by simp [h]))
    simp only [toRows, List.map_cons]
    rw [List.foldlM_cons]
    simp only at hstep ⊢
    rw [hstep]
    simpa [toRows, List.append_assoc] using hih

theorem combineFinal_roundtrip (d : List (String × JState))
    (hnod : (d.map Prod.fst).Nodup)
    (hcoh : ∀ ke ∈ d,
      ke.1 = ke.2.chrom ++ ":" ++ ke.2.start ++ "-" ++ ke.2.stop)
    (hsingle : ∀ ke ∈ d, ∃ s c, ke.2.samptimes = [(s, c)])
    (hnt : ∀ ke ∈ d, ke.2.ntimes = (ke.2.samptimes.map Prod.snd).sum)
    (hns : ∀ ke ∈ d, ke.2.nsamp =
      ((ke.2.samptimes.filter (fun p => p.2 != 0)).length : Int)) :
    combineFinal (toRows d ++ []) = .ok d := by
  rw [List.append_nil]
  have h1 := combineAll_fresh d [] (fun ke _ => rfl) hnod hcoh hsingle hnt
  rw [combineFinal, combineAll, h1]
  simp only [Except.map, List.nil_append, List.map_map]
  congr 1
  have hpt : ∀ ke ∈ d, ((fun ke => (ke.1, finalizeJ ke.2)) ∘
      (fun ke => (ke.1, (⟨ke.2.gene, ke.2.gene_type, ke.2.chrom, ke.2.start,
        ke.2.stop, ke.2.ntimes, 1, ke.2.samptimes⟩ : JState)))) ke = ke := by
    intro ke hke
    have hn := hns ke hke
    obtain ⟨k, st⟩ := ke
    obtain ⟨g1, g2, g3, g4, g5, g6, g7, g8⟩ := st
    simp only [Function.comp_def, finalizeJ] at hn ⊢
    rw [← hn]
  simpa using List.map_congr_left hpt

/-- C6 (amended): for single-sample input tables, cross-batch re-aggregation
is commutative at the level of junction keys and counts, and re-aggregating
an already-aggregated single-sample-per-junction result with an empty table
is a no-op; merging A with B and B with A yields combined tables with the
same junction strings, per-junction per-sample counts that are permutations
of each other with identical lookups, equal ntimes and equal nsamp; every
per-pair count is the sum of that pair's counts over the source records and
nsamp counts the samples with non-zero total; the ordered tables themselves
differ in entry order, as the counterexample shows. -/
theorem c6_reaggregation (A B : List SRow)
    (hA : ∀ r ∈ A, singleSample r) (hB : ∀ r ∈ B, singleSample r) :
    ∃ dAB dBA,
      combineFinal (A ++ B) = .ok dAB ∧
      combineFinal (B ++ A) = .ok dBA ∧
      (∀ k, (pyGet dAB k).isSome = (pyGet dBA k).isSome) ∧
      (∀ k st st2, pyGet dAB k = some st → pyGet dBA k = some st2 →
        st.samptimes.Perm st2.samptimes ∧
        (∀ s, pyGet st.samptimes s = pyGet st2.samptimes s) ∧
        st.ntimes = st2.ntimes ∧ st.nsamp = st2.nsamp) ∧
      (∀ k st, pyGet dAB k = some st →
        (∀ s, pyGet st.samptimes s = rowsSumOpt (A ++ B) k s) ∧
        st.nsamp = ((st.samptimes.filter (fun p => p.2 != 0)).length : Int)) ∧
      ((∀ ke ∈ dAB, ∃ s c, ke.2.samptimes = [(s, c)]) →
        combineFinal (toRows dAB ++ []) = .ok dAB) := by
  have hAB : ∀ r ∈ A ++ B, singleSample r := by
    intro r hr
    rcases List.mem_append.mp hr with h | h
    · exact hA r h
    · exact hB r h
  have hBA : ∀ r ∈ B ++ A, singleSample r := by
    intro r hr
    rcases List.mem_append.mp hr with h | h
    · exact hB r h
    · exact hA r h
  obtain ⟨dS, hS, hSnod, hSsome, hSent⟩ := combineAll_inv (A ++ B) hAB
  obtain ⟨dT, hT, hTnod, hTsome, hTent⟩ := combineAll_inv (B ++ A) hBA
  refine ⟨dS.map (fun ke => (ke.1, finalizeJ ke.2)),
    dT.map (fun ke => (ke.1, finalizeJ ke.2)), ?_, ?_, ?_, ?_, ?_, ?_⟩
  · rw [combineFinal, hS]
    rfl
  · rw [combineFinal, hT]
    rfl
  · intro k
    rw [pyGet_map_val, pyGet_map_val, isSome_omap, isSome_omap,
      hSsome k, hTsome k]
    simp [hasKey_append, Bool.or_comm]
  · intro k st st2 hg hh
    rw [pyGet_map_val] at hg hh
    cases hgS : pyGet dS k with
    | none =>
      rw [hgS] at hg
      simp at hg
    | some stS =>
      rw [hgS] at hg
      cases hgT : pyGet dT k with
      | none =>
        rw [hgT] at hh
        simp at hh
      | some stT =>
        rw [hgT] at hh
        simp only [Option.map] at hg hh
        injection hg with hg2
        injection hh with hh2
        subst hg2
        subst hh2
        obtain ⟨hS1, hS2, hS3, hS4⟩ := hSent k stS hgS
        obtain ⟨hT1, hT2, hT3, hT4⟩ := hTent k stT hgT
        have hlook : ∀ s, pyGet stS.samptimes s = pyGet stT.samptimes s := by
          intro s
          rw [hS2 s, hT2 s, rowsSumOpt_comm]
        have hperm : stS.samptimes.Perm stT.samptimes :=
          assoc_perm_of_pyGet_eq _ _ hS1 hT1 hlook
        refine ⟨?_, ?_, ?_, ?_⟩
        · show stS.samptimes.Perm stT.samptimes
          exact hperm
        · intro s
          show pyGet stS.samptimes s = pyGet stT.samptimes s
          exact hlook s
        · show stS.ntimes = stT.ntimes
          rw [hS3, hT3]
          exact List.Perm.sum_eq (hperm.map Prod.snd)
        · show ((stS.samptimes.filter (fun p => p.2 != 0)).length : Int) =
            ((stT.samptimes.filter (fun p => p.2 != 0)).length : Int)
          exact congrArg Nat.cast
            (List.Perm.length_eq (hperm.filter (fun p => p.2 != 0)))
  · intro k st hg
    rw [pyGet_map_val] at hg
    cases hgS : pyGet dS k with
    | none =>
      rw [hgS] at hg
      simp at hg
    | some stS =>
      rw [hgS] at hg
      simp only [Option.map] at hg
      injection hg with hg2
      subst hg2
      obtain ⟨hS1, hS2, hS3, hS4⟩ := hSent k stS hgS
      refine ⟨?_, rfl⟩
      intro s
      show pyGet stS.samptimes s = rowsSumOpt (A ++ B) k s
      exact hS2 s
  · intro hsing
    apply combineFinal_roundtrip
    · have hkeys : (dS.map (fun ke => (ke.1, finalizeJ ke.2))).map Prod.fst =
          dS.map Prod.fst := by
        simp [List.map_map, Function.comp_def]
      rw [hkeys]
      exact hSnod
    · intro ke hke
      obtain ⟨ke0, hke0, hkeq⟩ := List.mem_map.mp hke
      subst hkeq
      have hgS : pyGet dS ke0.1 = some ke0.2 :=
        (mem_iff_pyGet dS hSnod ke0.1 ke0.2).mp hke0
      obtain ⟨h1, h2, h3, h4⟩ := hSent ke0.1 ke0.2 hgS
      show ke0.1 = ke0.2.chrom ++ ":" ++ ke0.2.start ++ "-" ++ ke0.2.stop
      exact h4
    · exact hsing
    · intro ke hke
      obtain ⟨ke0, hke0, hkeq⟩ := List.mem_map.mp hke
      subst hkeq
      have hgS : pyGet dS ke0.1 = some ke0.2 :=
        (mem_iff_pyGet dS hSnod ke0.1 ke0.2).mp hke0
      obtain ⟨h1, h2, h3, h4⟩ := hSent ke0.1 ke0.2 hgS
      show ke0.2.ntimes = (ke0.2.samptimes.map Prod.snd).sum
      exact h3
    · intro ke hke
      obtain ⟨ke0, hke0, hkeq⟩ := List.mem_map.mp hke
      subst hkeq
      show ((ke0.2.samptimes.filter (fun p => p.2 != 0)).length : Int) = _
      rfl

/-- C6 counterexample: merging two one-record single-sample tables that carry
different junctions gives, in the two orders, the two entry orders of the
ordered dictionary, so the written combined tables differ: merging table A
with table B does not yield the same combined table as merging B with A. -/
theorem c6_counterexample :
    combineFinal ([⟨"g1", "t", "1", "10", "20", [("sA", 1)]⟩] ++
        [⟨"g2", "t", "2", "30", "40", [("sB", 2)]⟩]) ≠
      combineFinal ([⟨"g2", "t", "2", "30", "40", [("sB", 2)]⟩] ++
        [⟨"g1", "t", "1", "10", "20", [("sA", 1)]⟩]) := by
  decide

/-- Witness: the count-level commutativity theorem applied to two concrete
one-record single-sample tables carrying the same junction for different
samples. -/
theorem c6_reaggregation_witness :
    (∀ r ∈ [(⟨"g", "t", "1", "10", "20", [("sA", 2)]⟩ : SRow)],
      singleSample r) ∧
    (∀ r ∈ [(⟨"g", "t", "1", "10", "20", [("sB", 3)]⟩ : SRow)],
      singleSample r) ∧
    (∃ dAB dBA,
      combineFinal ([(⟨"g", "t", "1", "10", "20", [("sA", 2)]⟩ : SRow)] ++
        [(⟨"g", "t", "1", "10", "20", [("sB", 3)]⟩ : SRow)]) = .ok dAB ∧
      combineFinal ([(⟨"g", "t", "1", "10", "20", [("sB", 3)]⟩ : SRow)] ++
        [(⟨"g", "t", "1", "10", "20", [("sA", 2)]⟩ : SRow)]) = .ok dBA ∧
      (∀ k, (pyGet dAB k).isSome = (pyGet dBA k).isSome) ∧
      (∀ k st st2, pyGet dAB k = some st → pyGet dBA k = some st2 →
        st.samptimes.Perm st2.samptimes ∧
        (∀ s, pyGet st.samptimes s = pyGet st2.samptimes s) ∧
        st.ntimes = st2.ntimes ∧ st.nsamp = st2.nsamp) ∧
      (∀ k st, pyGet dAB k = some st →
        (∀ s, pyGet st.samptimes s = rowsSumOpt
          ([(⟨"g", "t", "1", "10", "20", [("sA", 2)]⟩ : SRow)] ++
            [(⟨"g", "t", "1", "10", "20", [("sB", 3)]⟩ : SRow)]) k s) ∧
        st.nsamp = ((st.samptimes.filter (fun p => p.2 != 0)).length : Int)) ∧
      ((∀ ke ∈ dAB, ∃ s c, ke.2.samptimes = [(s, c)]) →
        combineFinal (toRows dAB ++ []) = .ok dAB)) := by
  have hA : ∀ r ∈ [(⟨"g", "t", "1", "10", "20", [("sA", 2)]⟩ : SRow)],
      singleSample r := by
    intro r hr
    rw [List.mem_singleton] at hr
    subst hr
    exact ⟨"sA", 2, rfl⟩
  have hB : ∀ r ∈ [(⟨"g", "t", "1", "10", "20", [("sB", 3)]⟩ : SRow)],
      singleSample r := by
    intro r hr
    rw [List.mem_singleton] at hr
    subst hr
    exact ⟨"sB", 3, rfl⟩
  exact ⟨hA, hB, c6_reaggregation _ _ hA hB⟩

example :
    get_first_splice_junction "13M221400N34M2658N29M".data "2" 5 =
      some ⟨"2", 18, 221418⟩ := by decide

example :
    get_second_splice_junction "13M221400N34M2658N29M".data "2" 5 221418 =
      some ⟨"2", 221452, 224110⟩ := by decide

example :
    get_first_splice_junction "3M1D40M20N".data "2" 5 = some ⟨"2", 49, 69⟩ := by
  decide

example :
    get_first_splice_junction "8S13M221400N34M2658N29M".data "2" 5 =
      some ⟨"2", 18, 221418⟩ := by decide

end SpliceJD
